import Mathlib

/-!
Verification of the VCONN peer protocol (`src/peer.ts`).

Strings on the wire are modelled as `List Char` (`Str`).  The JavaScript
string primitives used by the source (`slice`, `split`, `join`, `includes`,
template literals, `parseInt`, `Number.prototype.toString`) are embedded as
executable functions on `Str`.  JavaScript values reachable from
`JSON.parse` are modelled by `JsVal`; `JSON.parse` / `JSON.stringify`
themselves are abstract oracles (a `JsonCodec`), since the peer only ever
treats them as black boxes, and concrete finite codecs instantiate them in
witnesses.
-/

namespace VCONN

/-- Wire strings: JavaScript strings as lists of characters. -/
abbrev Str := List Char

/-- Splits a string at every '.', as JavaScript `rawData.split(".")`
(`peer.ts` line 655).  `split` on an empty string yields `[""]`. -/
def splitDots : Str → List Str
  | [] => [[]]
  | c :: rest =>
    if c = '.' then [] :: splitDots rest
    else
      match splitDots rest with
      | [] => [[c]]
      | t :: ts => (c :: t) :: ts

/-- Joins string parts with '.', as JavaScript `parts.join(".")`
(`peer.ts` line 668). -/
def joinDots : List Str → Str
  | [] => []
  | [p] => p
  | p :: ps => p ++ '.' :: joinDots ps

/-- JavaScript `data.includes(".")` (`peer.ts` line 536). -/
def includesDot (s : Str) : Bool := s.contains '.'

/-- Decimal digit character, used to model `Number.prototype.toString`. -/
def digitChar (n : Nat) : Char := Char.ofNat (48 + n)

/-- Digit-emitting loop for `toDec`, structurally recursive on fuel so that
it reduces inside the kernel; `toDec` always supplies enough fuel. -/
def toDecGo : Nat → Nat → Str → Str
  | 0, _, acc => acc
  | fuel + 1, n, acc =>
    if n < 10 then digitChar n :: acc
    else toDecGo fuel (n / 10) (digitChar (n % 10) :: acc)

/-- Decimal representation of a natural number, modelling JavaScript
`n.toString()` for non-negative integers (`peer.ts` line 284).  The fuel
`n + 1` always exceeds the digit count; `toDec_eq` below recovers the usual
recursive characterization. -/
def toDec (n : Nat) : Str := toDecGo (n + 1) n []

/-- Decimal representation of an integer, modelling the template literal
interpolation of `chunkIndex` in `peer.ts` line 346 (the index may be `-1`). -/
def intToDec (i : Int) : Str :=
  if i < 0 then '-' :: toDec i.natAbs else toDec i.toNat

/-- Tests for an ASCII decimal digit. -/
def isDigitCh (c : Char) : Bool := '0' ≤ c ∧ c ≤ '9'

/-- Numeric value of a digit string read most-significant first. -/
def digitsToNat (ds : Str) : Nat :=
  ds.foldl (fun acc c => 10 * acc + (c.toNat - 48)) 0

/-- Leading run of decimal digits interpreted as a natural number; `none`
when the string has no leading digit. -/
def leadingDigits (s : Str) : Option Nat :=
  let ds := s.takeWhile isDigitCh
  if ds.isEmpty then none else some (digitsToNat ds)

/-- JavaScript `parseInt` as used on chunk index fields (`peer.ts` line 667):
an optional minus sign followed by a longest run of decimal digits; `none`
models the `NaN` result.  (Leading whitespace and an explicit plus sign never
occur in this protocol and are not modelled.) -/
def parseIntJS : Str → Option Int
  | '-' :: rest => (leadingDigits rest).map (fun n => -(n : Int))
  | s => (leadingDigits s).map (fun n => (n : Int))

/-- Clamps a JavaScript `slice` argument into `[0, len]`: negative values
count from the end of the string, large values are capped at the length. -/
def jsIdx (len : Nat) (i : Int) : Nat :=
  if i < 0 then (max ((len : Int) + i) 0).toNat else min i.toNat len

/-- JavaScript `s.slice(start, stop)` (`peer.ts` lines 338-341). -/
def jsSlice (s : Str) (start stop : Int) : Str :=
  (s.take (jsIdx s.length stop)).drop (jsIdx s.length start)

/-- JavaScript `s.slice(start)` (`peer.ts` line 296). -/
def jsSliceFrom (s : Str) (start : Int) : Str :=
  s.drop (jsIdx s.length start)

/-- JavaScript values as observed through `JSON.parse` results and
truthiness tests.  Numbers are modelled as integers (no claim involves
fractional or `NaN` numerics). -/
inductive JsVal where
  | undefined : JsVal
  | null : JsVal
  | bool : Bool → JsVal
  | num : Int → JsVal
  | str : Str → JsVal
  | obj : List (Str × JsVal) → JsVal

mutual

/-- Structural value equality on `JsVal`, used to model the same-value-zero
key comparison of a JavaScript `Map`. -/
def JsVal.beq : JsVal → JsVal → Bool
  | .undefined, .undefined => true
  | .null, .null => true
  | .bool a, .bool b => a = b
  | .num a, .num b => a = b
  | .str a, .str b => a = b
  | .obj a, .obj b => JsVal.beqFields a b
  | _, _ => false

/-- Field-list equality component of `JsVal.beq`. -/
def JsVal.beqFields : List (Str × JsVal) → List (Str × JsVal) → Bool
  | [], [] => true
  | (k1, v1) :: r1, (k2, v2) :: r2 =>
    decide (k1 = k2) && JsVal.beq v1 v2 && JsVal.beqFields r1 r2
  | _, _ => false

end

/-- JavaScript truthiness: `undefined`, `null`, `false`, `0` and the empty
string are falsy, everything else (objects included) is truthy. -/
def truthy : JsVal → Bool
  | .undefined => false
  | .null => false
  | .bool b => b
  | .num n => n ≠ 0
  | .str s => !s.isEmpty
  | .obj _ => true

/-- Property access `v.name`: field lookup on objects, `undefined`
otherwise.  (Parsed JSON objects have unique keys, so first-match lookup is
exact; property access on a primitive yields `undefined` in JavaScript.) -/
def jsGet (v : JsVal) (name : Str) : JsVal :=
  match v with
  | .obj fields =>
    match fields.find? (fun f => f.1 = name) with
    | some f => f.2
    | none => .undefined
  | _ => .undefined

/-- Field name `method`. -/
def kMethod : Str := ['m', 'e', 't', 'h', 'o', 'd']

/-- Field name `input`. -/
def kInput : Str := ['i', 'n', 'p', 'u', 't']

/-- Field name `transit`. -/
def kTransit : Str := ['t', 'r', 'a', 'n', 's', 'i', 't']

/-- Field name `error`. -/
def kError : Str := ['e', 'r', 'r', 'o', 'r']

/-- Field name `data`. -/
def kData : Str := ['d', 'a', 't', 'a']

/-- Abstract oracle for `JSON.stringify` / `JSON.parse`, which the peer
uses only as black boxes.  Theorems state the properties of the real JSON
codec that they rely on as explicit hypotheses; witnesses instantiate the
oracle with small concrete codecs satisfying them. -/
structure JsonCodec where
  stringify : JsVal → Str
  parse : Str → Option JsVal

/-- Association-list update modelling both `Map.prototype.set` and keyed
object assignment: replaces the value at the first key matching under `eqk`,
or appends a new entry.  Key comparison is an explicit Boolean test because
JavaScript `Map`s compare keys by same-value-zero (`JsVal.beq`). -/
def mapSet {κ ν : Type} (eqk : κ → κ → Bool) : List (κ × ν) → κ → ν → List (κ × ν)
  | [], k, v => [(k, v)]
  | (a, b) :: rest, k, v =>
    if eqk a k then (a, v) :: rest else (a, b) :: mapSet eqk rest k v

/-- Association-list lookup modelling `Map.prototype.get` and keyed object
access (`none` models `undefined`). -/
def mapGet {κ ν : Type} (eqk : κ → κ → Bool) : List (κ × ν) → κ → Option ν
  | [], _ => none
  | (a, b) :: rest, k => if eqk a k then some b else mapGet eqk rest k

/-- Association-list removal modelling `Map.prototype.delete`. -/
def mapDelete {κ ν : Type} (eqk : κ → κ → Bool) : List (κ × ν) → κ → List (κ × ν)
  | [], _ => []
  | (a, b) :: rest, k => if eqk a k then rest else (a, b) :: mapDelete eqk rest k

/-- Decidable key equality for chunk indices. -/
def optIntEq (a b : Option Int) : Bool := a = b

/-- Decidable key equality for method names. -/
def strEq (a b : Str) : Bool := a = b

/-! ## Encoder (`CallHandler.sendChunkedMessage`, `peer.ts` lines 104-182,
duplicated verbatim in `VCONNPeer`, lines 272-350) -/

/-- Per-chunk header overhead: the length of `` `${transitId}.${chunkIndexStr}.` ``
(`peer.ts` lines 284-285). -/
def chunkOverhead (tid idxStr : Str) : Nat :=
  (tid ++ '.' :: idxStr ++ ['.']).length

/-- The `maxChunkSize` computed for chunk index `i`
(`peer.ts` lines 286-287): the frame limit minus the header overhead for
this index minus the safe ceiling. -/
def maxChunkSizeAt (maxLen safeCeil : Int) (tid : Str) (i : Nat) : Int :=
  maxLen - (chunkOverhead tid (toDec i) : Int) - safeCeil

/-- The `while (remainingString.length > 0)` loop of `calculateChunkLimits`
(`peer.ts` lines 282-299), with explicit fuel: `none` models a run of the
source loop that does not terminate within the given fuel.  `acc` collects
`chunkLimits` in reverse. -/
def calcChunkLoop (maxLen safeCeil : Int) (tid : Str) :
    Nat → Str → Nat → List Int → Option (List Int)
  | 0, remaining, _, acc => if remaining.isEmpty then some acc.reverse else none
  | fuel + 1, remaining, chunkIndex, acc =>
    if remaining.isEmpty then some acc.reverse
    else
      let maxChunkSize := maxChunkSizeAt maxLen safeCeil tid chunkIndex
      if (remaining.length : Int) ≤ maxChunkSize then
        some ((remaining.length : Int) :: acc).reverse
      else
        calcChunkLoop maxLen safeCeil tid fuel
          (jsSliceFrom remaining maxChunkSize) (chunkIndex + 1) (maxChunkSize :: acc)

/-- `calculateChunkLimits` (`peer.ts` lines 272-302).  The fuel
`s.length + 1` is exact: in any terminating run of the source loop every
iteration consumes at least one character of `remainingString` (once
`maxChunkSize` drops to zero or below, the remaining string never becomes
empty and the loop runs forever — `calcChunkLoop_stuck_small` below
exhibits this), so `none` models non-termination of the source. -/
def calculateChunkLimits (maxLen safeCeil : Int) (tid s : Str) : Option (List Int) :=
  if maxLen = -1 then some [(s.length : Int)]
  else calcChunkLoop maxLen safeCeil tid (s.length + 1) s 0 []

/-- One raw chunk frame `` `${transitId}.${chunkIndex}.${chunk}` ``
(`peer.ts` line 346). -/
def chunkFrame (tid : Str) (chunkIndex : Int) (data : Str) : Str :=
  tid ++ '.' :: intToDec chunkIndex ++ '.' :: data

/-- The chunk-sending loop of `sendChunkedMessage` (`peer.ts` lines
336-349): emits one frame per chunk limit, slicing the input at the running
`currentIndex`; the last chunk is tagged with sentinel index `-1`, all
others with their sequential index. -/
def chunkFramesLoop (tid s : Str) : List Int → Int → Nat → List Str
  | [], _, _ => []
  | [lim], currentIndex, _ =>
    [chunkFrame tid (-1) (jsSlice s currentIndex (currentIndex + lim))]
  | lim :: rest, currentIndex, i =>
    chunkFrame tid i (jsSlice s currentIndex (currentIndex + lim)) ::
      chunkFramesLoop tid s rest (currentIndex + lim) (i + 1)

/-- The chunk frames (without the transit-init frame) that
`sendChunkedMessage` emits for serialized input `s`. -/
def chunkFramesOf (maxLen safeCeil : Int) (tid s : Str) : Option (List Str) :=
  (calculateChunkLimits maxLen safeCeil tid s).map
    (fun lims => chunkFramesLoop tid s lims 0 0)

/-- `sendChunkedMessage` (`peer.ts` lines 305-350) as the list of frames
passed to `socket.send`, in order: one whole-message frame when no chunking
is needed, otherwise the transit-init frame followed by the chunk frames.
The random `generateTransitId()` result is the parameter `tid`. -/
def encodeFrames (codec : JsonCodec) (maxLen safeCeil : Int) (tid method : Str)
    (input : JsVal) : Option (List Str) :=
  let inputString := codec.stringify input
  if maxLen = -1 ∨ (inputString.length : Int) ≤ maxLen then
    some [codec.stringify (.obj [(kMethod, .str method), (kInput, input)])]
  else
    (calculateChunkLimits maxLen safeCeil tid inputString).map
      (fun lims =>
        codec.stringify (.obj [(kMethod, .str method), (kTransit, .str tid)]) ::
          chunkFramesLoop tid inputString lims 0 0)

/-- Specification predicate for the chunk-limit lists that the
`calculateChunkLimits` loop produces: starting at chunk index `i` with `len`
characters remaining, every entry but the last is the full `maxChunkSize`
of its index, and the last entry is the positive remainder fitting within
its index's `maxChunkSize`. -/
inductive LimitsSpec (maxLen safeCeil : Int) (tid : Str) : Nat → Nat → List Int → Prop where
  | last (i : Nat) (len : Nat) (h1 : 0 < len)
      (h2 : (len : Int) ≤ maxChunkSizeAt maxLen safeCeil tid i) :
      LimitsSpec maxLen safeCeil tid i len [(len : Int)]
  | step (i : Nat) (len : Nat) (rest : List Int)
      (h1 : 1 ≤ maxChunkSizeAt maxLen safeCeil tid i)
      (hlt : maxChunkSizeAt maxLen safeCeil tid i < (len : Int))
      (hrec : LimitsSpec maxLen safeCeil tid (i + 1)
        (len - (maxChunkSizeAt maxLen safeCeil tid i).toNat) rest) :
      LimitsSpec maxLen safeCeil tid i len (maxChunkSizeAt maxLen safeCeil tid i :: rest)

/-! ## Transit reassembler and dispatcher (`peer.ts` lines 530-800) -/

/-- One in-progress transfer (`TransitData`, `peer.ts` lines 69-72).  Chunk
keys are `Option Int`; `none` models the `NaN` index that `parseInt`
produces on a digit-free index field. -/
structure TransitData where
  method : JsVal
  chunks : List (Option Int × Str)

/-- The transit store (`transitStorage`, `peer.ts` line 242).  Keys are the
raw `jsonData.transit` values, compared as a JavaScript `Map` compares
them. -/
structure PeerState where
  transitStorage : List (JsVal × TransitData)

/-- Tags for the distinct `logger` call sites of the dispatch path. -/
inductive LogTag where
  | invalidJson
  | methodNotFound
  | inputNotFound
  | transitInitiated
  | invalidChunkFormat
  | unknownTransit
  | reassemblyError
  | unfoundMethod
  | validationFailed
deriving DecidableEq

/-- Observable actions of the dispatch path: a `logger` call (with its
`error` flag), a handler invocation with its validated input, or a
`socket.send`. -/
inductive Effect where
  | logged : Bool → LogTag → Effect
  | invoked : Str → JsVal → Effect
  | sent : Str → Effect

/-- A registered method's validation component (`Method.schema`); the
handler body itself is abstract — its invocation is recorded as an
`Effect.invoked`.  `none` from the validator models a thrown `ZodError`. -/
structure MethodDef where
  schema : Option (JsVal → Option JsVal)

/-- Peer configuration: the JSON oracle, the `debugLog` flag and the method
collection. -/
structure PeerConfig where
  codec : JsonCodec
  debugLog : Bool
  methods : List (Str × MethodDef)

/-- A `logger` call, emitted only when `debugLog` is set (every `logger`
call site in `peer.ts` is guarded by `if (this.debugLog)`). -/
def logIf (cfg : PeerConfig) (isErr : Bool) (t : LogTag) : List Effect :=
  if cfg.debugLog then [.logged isErr t] else []

/-- Ascending comparison for chunk indices, modelling the comparator
`(a, b) => a - b` (`peer.ts` line 692).  A `none` (`NaN`) key makes the
JavaScript comparator return `NaN`, leaving the order unspecified; such keys
only arise from malformed traffic and are compared arbitrarily here. -/
def keyLE (a b : Option Int) : Bool :=
  match a, b with
  | some x, some y => x ≤ y
  | _, _ => true

/-- Insertion into a sorted key list. -/
def insertSorted (x : Option Int) : List (Option Int) → List (Option Int)
  | [] => [x]
  | y :: ys => if keyLE x y then x :: y :: ys else y :: insertSorted x ys

/-- Ascending sort of chunk indices, modelling
`chunkIndices.sort((a, b) => a - b)` (`peer.ts` lines 689-692). -/
def sortKeys : List (Option Int) → List (Option Int)
  | [] => []
  | x :: xs => insertSorted x (sortKeys xs)

/-- Chunk reassembly (`peer.ts` lines 688-699): all chunk indices except
the sentinel `-1`, sorted ascending, their data concatenated in that order,
then the terminal chunk's data appended.  Every enumerated key is present
in the store, so the `getD` default is unreachable. -/
def reassembleChunks (chunks : List (Option Int × Str)) : Str :=
  let chunkIndices :=
    sortKeys ((chunks.map Prod.fst).filter (fun k => decide (k ≠ some (-1))))
  (chunkIndices.map (fun k => (mapGet optIntEq chunks k).getD [])).flatten
    ++ (mapGet optIntEq chunks (some (-1))).getD []

/-- Validation and invocation shared by the whole-message path
(`peer.ts` lines 576-631) and the reassembled-transit path
(`processCompleteMessage`, lines 727-788), which are textually identical in
the source: look up the method (a non-string method value is never found),
run the validator if one is registered, and on success invoke the handler;
an unknown method or a validation failure is logged and dropped. -/
def dispatchMessage (cfg : PeerConfig) (methodName : JsVal) (input : JsVal)
    (st : PeerState) : PeerState × List Effect :=
  match methodName with
  | .str name =>
    match mapGet strEq cfg.methods name with
    | none => (st, logIf cfg false .unfoundMethod)
    | some m =>
      match m.schema with
      | none => (st, [.invoked name input])
      | some validator =>
        match validator input with
        | some validatedInput => (st, [.invoked name validatedInput])
        | none => (st, logIf cfg true .validationFailed)
  | _ => (st, logIf cfg false .unfoundMethod)

/-- `handleTransitInitiation` (`peer.ts` lines 635-650): unconditionally
stores a fresh transit buffer under `jsonData.transit` and logs the
initiation. -/
def handleTransitInitiation (cfg : PeerConfig) (jsonData : JsVal)
    (st : PeerState) : PeerState × List Effect :=
  let transitId := jsGet jsonData kTransit
  let methodName := jsGet jsonData kMethod
  (⟨mapSet JsVal.beq st.transitStorage transitId ⟨methodName, []⟩⟩,
    logIf cfg false .transitInitiated)

/-- `handleTransitChunk` (`peer.ts` lines 653-724): parse the raw frame
into id, index and dot-rejoined data; drop malformed frames and unknown
transit ids; store the chunk; on the sentinel index `-1` reassemble, parse,
delete the buffer (in both the success and the failure branch) and dispatch
the complete message. -/
def handleTransitChunk (cfg : PeerConfig) (rawData : Str) (st : PeerState) :
    PeerState × List Effect :=
  match splitDots rawData with
  | transitId :: idxStr :: d0 :: drest =>
    let chunkIndex := parseIntJS idxStr
    let chunkData := joinDots (d0 :: drest)
    match mapGet JsVal.beq st.transitStorage (.str transitId) with
    | none => (st, logIf cfg true .unknownTransit)
    | some transitData =>
      let transitData' : TransitData :=
        ⟨transitData.method, mapSet optIntEq transitData.chunks chunkIndex chunkData⟩
      let st' : PeerState :=
        ⟨mapSet JsVal.beq st.transitStorage (.str transitId) transitData'⟩
      if chunkIndex = some (-1) then
        match cfg.codec.parse (reassembleChunks transitData'.chunks) with
        | some completeInput =>
          dispatchMessage cfg transitData'.method completeInput
            ⟨mapDelete JsVal.beq st'.transitStorage (.str transitId)⟩
        | none =>
          (⟨mapDelete JsVal.beq st'.transitStorage (.str transitId)⟩,
            logIf cfg true .reassemblyError)
      else (st', [])
  | _ => (st, logIf cfg true .invalidChunkFormat)

/-- `handle` (`peer.ts` lines 530-632): route a raw frame.  A frame that
fails JSON parsing and contains a dot is a transit chunk; a parsed frame
needs a truthy `method`, is a transit initiation if `transit` is truthy,
needs a truthy `input`, and is then dispatched. -/
def handle (cfg : PeerConfig) (rawData : Str) (st : PeerState) :
    PeerState × List Effect :=
  match cfg.codec.parse rawData with
  | none =>
    if includesDot rawData then handleTransitChunk cfg rawData st
    else (st, logIf cfg true .invalidJson)
  | some jsonData =>
    if !truthy (jsGet jsonData kMethod) then (st, logIf cfg true .methodNotFound)
    else if truthy (jsGet jsonData kTransit) then
      handleTransitInitiation cfg jsonData st
    else if !truthy (jsGet jsonData kInput) then (st, logIf cfg true .inputNotFound)
    else dispatchMessage cfg (jsGet jsonData kMethod) (jsGet jsonData kInput) st

/-- Sequential processing of inbound frames (one `handle` call per message
event), accumulating the emitted effects. -/
def runFrames (cfg : PeerConfig) : List Str → PeerState → PeerState × List Effect
  | [], st => (st, [])
  | f :: fs, st =>
    let r := handle cfg f st
    let r' := runFrames cfg fs r.1
    (r'.1, r.2 ++ r'.2)

/-- Executable chunked round-trip check: encoding succeeds, and replaying
the emitted frames against a peer that registers `method` (schema-free)
leaves the transit store empty and invokes the handler exactly once with
exactly the sent input. -/
def roundTripOk (codec : JsonCodec) (maxLen safeCeil : Int) (tid method : Str)
    (input : JsVal) : Bool :=
  let cfg : PeerConfig := ⟨codec, false, [(method, ⟨none⟩)]⟩
  match encodeFrames codec maxLen safeCeil tid method input with
  | none => false
  | some frames =>
    let r := runFrames cfg frames ⟨[]⟩
    r.1.transitStorage.isEmpty &&
      match r.2 with
      | [.invoked name v] => strEq name method && JsVal.beq v input
      | _ => false

/-! ## Caller (`CallHandler.getCaller`, `peer.ts` lines 184-217) -/

/-- How a pending call's promise settles (`peer.ts` lines 190-205):
resolved with `response.data`, rejected with `new Error(response.error)`,
or rejected with the caught `JSON.parse` exception. -/
inductive CallOutcome where
  | resolved : JsVal → CallOutcome
  | rejectedError : JsVal → CallOutcome
  | rejectedParseFailure : CallOutcome

/-- State of one issued call: whether its one-shot `message` listener is
still registered, and how its promise has settled (if it has). -/
structure WaiterState where
  listenerActive : Bool
  outcome : Option CallOutcome

/-- The fresh state right after `addEventListener("message", ...)` and
sending the call (`peer.ts` lines 207-210). -/
def newCallWaiter : WaiterState := ⟨true, none⟩

/-- The body of `messageHandler` (`peer.ts` lines 190-205): parse the
inbound message, reject with the `error` field if it is truthy, otherwise
resolve with the `data` field; reject with the parse error when parsing
throws. -/
def messageOutcome (parse : Str → Option JsVal) (raw : Str) : CallOutcome :=
  match parse raw with
  | none => .rejectedParseFailure
  | some response =>
    if truthy (jsGet response kError) then .rejectedError (jsGet response kError)
    else .resolved (jsGet response kData)

/-- Delivery of one inbound `message` event to the waiter: if the listener
is registered it settles the promise and then removes itself
(`removeEventListener`, `peer.ts` lines 201-204, runs after the
`try`/`catch` on every path); otherwise the event does not touch this
call. -/
def deliverMessage (parse : Str → Option JsVal) (raw : Str) (w : WaiterState) :
    WaiterState :=
  if w.listenerActive then ⟨false, some (messageOutcome parse raw)⟩ else w

/-! ## Connection manager (`connect`, `peer.ts` lines 400-515) -/

/-- Total number of connection attempts made when every attempt fails after
opening: `attemptConnection(attempt)` creates one socket, and its `onclose`
schedules `attemptConnection(attempt + 1)` exactly when
`reconnect && attempt < maxReconnectAttempts` (`peer.ts` line 489).  The
initial call is `attemptConnection()` with default `attempt = 1`
(`peer.ts` lines 415-416, 514). -/
def totalAttempts (reconnect : Bool) (maxReconnectAttempts : Nat) (attempt : Nat) : Nat :=
  if reconnect = true ∧ attempt < maxReconnectAttempts then
    1 + totalAttempts reconnect maxReconnectAttempts (attempt + 1)
  else 1
termination_by maxReconnectAttempts - attempt
decreasing_by omega

/-- What the `onclose` handler does after running the `close` hook
(`peer.ts` lines 488-509). -/
inductive CloseOutcome where
  | scheduleRetry : Nat → CloseOutcome
  | giveUpSilently : CloseOutcome
deriving DecidableEq

/-- The reconnection decision of `onclose` (`peer.ts` line 489): schedule
`attemptConnection(attempt + 1)` via `setTimeout` when attempts remain,
else do nothing — the handler returns without raising anything, and the
scheduled retry's own rejection is consumed by `.catch`
(`peer.ts` lines 498-507). -/
def onCloseOutcome (reconnect : Bool) (maxReconnectAttempts attempt : Nat) :
    CloseOutcome :=
  if reconnect = true ∧ attempt < maxReconnectAttempts then
    .scheduleRetry (attempt + 1)
  else .giveUpSilently

/-- Timer-visible state of the connection manager: how many scheduled
reconnection `setTimeout` tasks are pending, and the current socket (the
single `this.socket` field). -/
structure ConnMgrState where
  pendingRetryTimers : Nat
  socket : Option Nat
deriving DecidableEq

/-- The socket handling at the top of `attemptConnection`
(`peer.ts` lines 418-429): close and replace any existing socket with a
freshly constructed one.  The source stores no handle for the `setTimeout`
of line 490 and contains no `clearTimeout`, so entering a new connection
attempt leaves every pending retry timer pending. -/
def attemptConnectionStart (newSocket : Nat) (s : ConnMgrState) : ConnMgrState :=
  ⟨s.pendingRetryTimers, some newSocket⟩

/-- A pending retry timer firing (`peer.ts` lines 490-508): the timer is
consumed and runs `attemptConnection(attempt + 1)`, which closes and
replaces whatever socket is current. -/
def fireRetryTimer (newSocket : Nat) (s : ConnMgrState) : ConnMgrState :=
  ⟨s.pendingRetryTimers - 1, some newSocket⟩

/-! ## One complete chunked transfer, for the memory-bound statement -/

/-- A chunked transfer as received by a peer: its transit-init frame, the
transit id that frame announces, the non-terminal chunks (sequential index
and raw data) and the terminal chunk's data. -/
structure Transfer where
  initFrame : Str
  tid : Str
  middleChunks : List (Nat × Str)
  lastData : Str

/-- The inbound frame sequence of a transfer: the transit-init frame, the
non-terminal chunk frames, then the terminal chunk frame. -/
def Transfer.frames (t : Transfer) : List Str :=
  t.initFrame ::
    (t.middleChunks.map (fun p => chunkFrame t.tid (p.1 : Int) p.2) ++
      [chunkFrame t.tid (-1) t.lastData])

/-- Well-formedness of a transfer under a codec: the init frame parses to
an object announcing the transit id with a truthy method, the id is a
non-empty dot-free string, and raw chunk frames are not themselves valid
JSON. -/
def Transfer.WF (codec : JsonCodec) (t : Transfer) : Prop :=
  (∃ j, codec.parse t.initFrame = some j ∧ truthy (jsGet j kMethod) = true ∧
    jsGet j kTransit = .str t.tid) ∧
  t.tid ≠ [] ∧ (∀ c ∈ t.tid, c ≠ '.') ∧
  (∀ i d, codec.parse (chunkFrame t.tid i d) = none)

/-! ## Concrete instances used by witnesses and counterexamples -/

/-- A transit id of the shape `generateTransitId` produces
(`peer.ts` lines 5-7): `V-` followed by base-36 characters. -/
def demoTid : Str := ['V', '-', 'a', 'b', 'c', '0', 'd', 'e', 'f', '1', 'g', 'h', 'i', '2', '3']

/-- A registered method name. -/
def demoMethod : Str := ['p', 'i', 'n', 'g']

/-- A 30-character serialized payload. -/
def demoS : Str := 'S' :: List.replicate 29 'a'

/-- The payload value that `demoCodec` serializes to `demoS`. -/
def demoInput : JsVal := .str (List.replicate 29 'a')

/-- The transit-init object `{method, transit}` for the demo transfer. -/
def demoInitObj : JsVal := .obj [(kMethod, .str demoMethod), (kTransit, .str demoTid)]

/-- The serialized form of `demoInitObj` under `demoCodec`. -/
def demoInit : Str := ['{', 'i', 'n', 'i', 't', '}']

/-- A small concrete JSON codec, agreeing with real JSON on the finite set
of values exercised by witnesses: it serializes `demoInput` and
`demoInitObj` to distinguished strings and parses exactly those strings
back; every other string — in particular every raw chunk frame, which
starts with the `V` of the transit id — fails to parse. -/
def demoCodec : JsonCodec where
  stringify := fun v =>
    if JsVal.beq v demoInput then demoS
    else if JsVal.beq v demoInitObj then demoInit
    else []
  parse := fun raw =>
    if raw = demoInit then some demoInitObj
    else if raw = demoS then some demoInput
    else none

/-- A peer configuration with logging disabled and the demo method
registered without a schema. -/
def demoCfg : PeerConfig := ⟨demoCodec, false, [(demoMethod, ⟨none⟩)]⟩

/-- The demo configuration with `debugLog` enabled. -/
def demoCfgLog : PeerConfig := ⟨demoCodec, true, [(demoMethod, ⟨none⟩)]⟩

/-- A transit store holding one live buffer for `demoTid` with one stored
chunk — in-progress reassembly state. -/
def cxStore : List (JsVal × TransitData) :=
  [(JsVal.str demoTid, ⟨JsVal.str demoMethod, [(some 0, ['x'])]⟩)]

/-- A transit-init object announcing the already-live id `demoTid` for a
different method — a transit-id collision. -/
def cxInitJson : JsVal :=
  .obj [(kMethod, .str ['m', '2']), (kTransit, .str demoTid)]

/-- One complete demo transfer: init frame, one middle chunk, terminal
chunk. -/
def demoTransfer : Transfer := ⟨demoInit, demoTid, [(0, ['x'])], ['y']⟩

/-- A parsed whole-message frame whose `method` is truthy but whose `input`
field is the falsy number `0`. -/
def cxJson10 : JsVal := .obj [(kMethod, .str demoMethod), (kInput, .num 0)]

/-- A codec whose parse oracle returns `cxJson10` for every frame, used to
drive the falsy-input branch of `handle`, with logging enabled. -/
def cx10Cfg : PeerConfig := ⟨⟨fun _ => [], fun _ => some cxJson10⟩, true, []⟩

/-! ## Lemmas: decimal strings -/

theorem toDecGo_acc (fuel : Nat) :
    ∀ n acc, n < 10 ^ fuel → toDecGo fuel n acc = toDecGo fuel n [] ++ acc := by
  induction fuel with
  | zero => intro n acc _; rfl
  | succ fuel ih =>
    intro n acc h
    by_cases h10 : n < 10
    · simp [toDecGo, h10]
    · have hlt : n / 10 < 10 ^ fuel := by
        rw [Nat.div_lt_iff_lt_mul (by omega)]
        calc n < 10 ^ (fuel + 1) := h
        _ = 10 ^ fuel * 10 := by ring
      simp only [toDecGo, if_neg h10]
      rw [ih _ _ hlt, ih _ (digitChar (n % 10) :: []) hlt]
      simp

theorem toDecGo_fuel (fuel : Nat) :
    ∀ fuel' n acc, 1 ≤ fuel → n < 10 ^ fuel → fuel ≤ fuel' →
      toDecGo fuel n acc = toDecGo fuel' n acc := by
  induction fuel with
  | zero => omega
  | succ fuel ih =>
    intro fuel' n acc _ hn hle
    obtain ⟨f', rfl⟩ : ∃ f', fuel' = f' + 1 := ⟨fuel' - 1, by omega⟩
    by_cases h10 : n < 10
    · simp [toDecGo, h10]
    · have h1 : 1 ≤ fuel := by
        rcases Nat.eq_zero_or_pos fuel with h | h
        · subst h; simp at hn; omega
        · exact h
      have hlt : n / 10 < 10 ^ fuel := by
        rw [Nat.div_lt_iff_lt_mul (by omega)]
        calc n < 10 ^ (fuel + 1) := hn
        _ = 10 ^ fuel * 10 := by ring
      simp only [toDecGo, if_neg h10]
      exact ih f' (n / 10) _ h1 hlt (by omega)

theorem lt_ten_pow_succ (n : Nat) : n < 10 ^ (n + 1) := by
  calc n < n + 1 := by omega
  _ ≤ 10 ^ (n + 1) := (Nat.lt_pow_self (by omega) (n + 1)).le

/-- The usual recursive characterization of `toDec`. -/
theorem toDec_eq (n : Nat) :
    toDec n = if n < 10 then [digitChar n] else toDec (n / 10) ++ [digitChar (n % 10)] := by
  by_cases h10 : n < 10
  · simp [toDec, toDecGo, h10]
  · have hdiv : n / 10 < n := Nat.div_lt_self (by omega) (by omega)
    have hpow : n < 10 ^ n := Nat.lt_pow_self (by omega) n
    have hlt : n / 10 < 10 ^ n := lt_of_lt_of_le hdiv hpow.le
    rw [if_neg h10]
    calc toDec n = toDecGo n (n / 10) [digitChar (n % 10)] := by
          simp only [toDec, toDecGo, if_neg h10]
    _ = toDecGo n (n / 10) [] ++ [digitChar (n % 10)] := toDecGo_acc n (n / 10) _ hlt
    _ = toDec (n / 10) ++ [digitChar (n % 10)] := by
          rw [toDec]
          rw [toDecGo_fuel (n / 10 + 1) n (n / 10) [] (by omega) (lt_ten_pow_succ _) (by omega)]

theorem toDec_ne_nil (n : Nat) : toDec n ≠ [] := by
  rw [toDec_eq]
  split <;> simp

theorem isDigitCh_digitChar {n : Nat} (h : n < 10) : isDigitCh (digitChar n) = true := by
  interval_cases n <;> decide

theorem toDec_digits (n : Nat) : ∀ c ∈ toDec n, isDigitCh c = true := by
  induction n using Nat.strong_induction_on with
  | _ n ih =>
    rw [toDec_eq]
    split
    next h =>
      intro c hc
      simp only [List.mem_singleton] at hc
      subst hc
      exact isDigitCh_digitChar h
    next h =>
      intro c hc
      rw [List.mem_append] at hc
      rcases hc with hc | hc
      · exact ih (n / 10) (Nat.div_lt_self (by omega) (by omega)) c hc
      · simp only [List.mem_singleton] at hc
        subst hc
        exact isDigitCh_digitChar (Nat.mod_lt _ (by omega))

theorem isDigitCh_ne_dot {c : Char} (h : isDigitCh c = true) : c ≠ '.' := by
  intro he
  subst he
  exact absurd h (by decide)

theorem isDigitCh_ne_dash {c : Char} (h : isDigitCh c = true) : c ≠ '-' := by
  intro he
  subst he
  exact absurd h (by decide)

theorem toDec_ne_dot (n : Nat) : ∀ c ∈ toDec n, c ≠ '.' :=
  fun c hc => isDigitCh_ne_dot (toDec_digits n c hc)

theorem digitChar_toNat {n : Nat} (h : n < 10) : (digitChar n).toNat = 48 + n := by
  interval_cases n <;> decide

theorem digitsToNat_append_digit (ds : Str) (c : Char) :
    digitsToNat (ds ++ [c]) = 10 * digitsToNat ds + (c.toNat - 48) := by
  simp [digitsToNat, List.foldl_append]

theorem digitsToNat_toDec (n : Nat) : digitsToNat (toDec n) = n := by
  induction n using Nat.strong_induction_on with
  | _ n ih =>
    rw [toDec_eq]
    split
    next h =>
      simp [digitsToNat, digitChar_toNat h]
    next h =>
      rw [digitsToNat_append_digit]
      rw [ih (n / 10) (Nat.div_lt_self (by omega) (by omega))]
      rw [digitChar_toNat (Nat.mod_lt _ (by omega))]
      omega

theorem takeWhile_eq_self {p : Char → Bool} :
    ∀ {l : Str}, (∀ c ∈ l, p c = true) → l.takeWhile p = l := by
  intro l
  induction l with
  | nil => intro _; rfl
  | cons c cs ih =>
    intro h
    have hc : p c = true := h c (by simp)
    have hrest : List.takeWhile p cs = cs := ih (fun d hd => h d (by simp [hd]))
    simp only [List.takeWhile_cons, hc, if_true, hrest]

theorem leadingDigits_toDec (n : Nat) : leadingDigits (toDec n) = some n := by
  unfold leadingDigits
  rw [takeWhile_eq_self (toDec_digits n)]
  have h1 : (toDec n).isEmpty = false := by
    rw [List.isEmpty_eq_false_iff_exists_mem]
    rcases List.exists_mem_of_ne_nil _ (toDec_ne_nil n) with ⟨c, hc⟩
    exact ⟨c, hc⟩
  simp [h1, digitsToNat_toDec]

theorem parseIntJS_toDec (n : Nat) : parseIntJS (toDec n) = some (n : Int) := by
  obtain ⟨c, cs, hd⟩ : ∃ c cs, toDec n = c :: cs := by
    rcases h : toDec n with _ | ⟨c, cs⟩
    · exact absurd h (toDec_ne_nil n)
    · exact ⟨c, cs, rfl⟩
  have hc : c ≠ '-' := by
    apply isDigitCh_ne_dash
    apply toDec_digits n
    rw [hd]
    simp
  have hl : leadingDigits (c :: cs) = some n := by
    rw [← hd, leadingDigits_toDec]
  rw [hd, parseIntJS.eq_def]
  split
  next rest heq =>
    injection heq with h1 _
    exact absurd h1 hc
  next =>
    rw [hl]
    rfl

theorem intToDec_ofNat (n : Nat) : intToDec (n : Int) = toDec n := by
  unfold intToDec
  rw [if_neg (by omega)]
  congr 1

theorem intToDec_negOne : intToDec (-1) = ['-', '1'] := by decide

theorem parseIntJS_intToDec_ofNat (n : Nat) :
    parseIntJS (intToDec (n : Int)) = some (n : Int) := by
  rw [intToDec_ofNat, parseIntJS_toDec]

theorem parseIntJS_intToDec_negOne : parseIntJS (intToDec (-1)) = some (-1) := by decide

theorem intToDec_ne_dot : ∀ (i : Int), ∀ c ∈ intToDec i, c ≠ '.' := by
  intro i c hc
  unfold intToDec at hc
  split at hc
  · rcases List.mem_cons.mp hc with hc | hc
    · subst hc; decide
    · exact isDigitCh_ne_dot (toDec_digits _ c hc)
  · exact isDigitCh_ne_dot (toDec_digits _ c hc)

/-! ## Lemmas: dot splitting and joining -/

theorem splitDots_ne_nil : ∀ s : Str, splitDots s ≠ [] := by
  intro s
  induction s with
  | nil => simp [splitDots]
  | cons c cs ih =>
    rw [splitDots]
    split
    · simp
    · rcases h : splitDots cs with _ | ⟨t, ts⟩
      · simp
      · simp [h]

theorem joinDots_splitDots : ∀ s : Str, joinDots (splitDots s) = s := by
  intro s
  induction s with
  | nil => rfl
  | cons c cs ih =>
    rw [splitDots]
    split
    next hc =>
      subst hc
      rcases h : splitDots cs with _ | ⟨t, ts⟩
      · exact absurd h (splitDots_ne_nil cs)
      · rw [h] at ih
        simp only [joinDots]
        rw [ih]
        rfl
    next hc =>
      rcases h : splitDots cs with _ | ⟨t, ts⟩
      · exact absurd h (splitDots_ne_nil cs)
      · rw [h] at ih
        rcases ts with _ | ⟨t2, ts2⟩
        · simp only [joinDots] at ih ⊢
          rw [ih]
        · simp only [joinDots] at ih ⊢
          rw [List.cons_append, ih]

theorem splitDots_append_dotfree :
    ∀ (a r : Str), (∀ c ∈ a, c ≠ '.') →
      splitDots (a ++ '.' :: r) = a :: splitDots r := by
  intro a
  induction a with
  | nil =>
    intro r _
    simp [splitDots]
  | cons c cs ih =>
    intro r h
    have hc : c ≠ '.' := h c (by simp)
    rw [List.cons_append, splitDots, if_neg hc]
    rw [ih r (fun d hd => h d (by simp [hd]))]

theorem dotfree_splitDots : ∀ s : Str, (∀ c ∈ s, c ≠ '.') → splitDots s = [s] := by
  intro s
  induction s with
  | nil => intro _; rfl
  | cons c cs ih =>
    intro h
    have hc : c ≠ '.' := h c (by simp)
    rw [splitDots, if_neg hc, ih (fun d hd => h d (by simp [hd]))]

theorem includesDot_of_mem {s : Str} (h : '.' ∈ s) : includesDot s = true :=
  List.elem_eq_true_of_mem h

/-! ## Lemmas: chunk frame shape -/

theorem chunkFrame_assoc (tid : Str) (i : Int) (d : Str) :
    chunkFrame tid i d = tid ++ '.' :: (intToDec i ++ '.' :: d) := by
  simp [chunkFrame]

theorem splitDots_chunkFrame (tid : Str) (i : Int) (d : Str)
    (htid : ∀ c ∈ tid, c ≠ '.') :
    splitDots (chunkFrame tid i d) = tid :: intToDec i :: splitDots d := by
  rw [chunkFrame_assoc, splitDots_append_dotfree tid _ htid,
    splitDots_append_dotfree (intToDec i) d (intToDec_ne_dot i)]

theorem includesDot_chunkFrame (tid : Str) (i : Int) (d : Str) :
    includesDot (chunkFrame tid i d) = true := by
  apply includesDot_of_mem
  rw [chunkFrame_assoc]
  simp

/-! ## Lemmas: `JsVal.beq` on the keys the peer uses -/

theorem beq_str_refl (t : Str) : JsVal.beq (.str t) (.str t) = true := by
  simp [JsVal.beq]

theorem beq_str_iff (a : JsVal) (t : Str) : JsVal.beq a (.str t) = true ↔ a = .str t := by
  cases a <;> simp [JsVal.beq]

theorem beq_str_ne (t t' : Str) (h : t ≠ t') :
    JsVal.beq (.str t) (.str t') = false := by
  simp [JsVal.beq, h]

/-! ## Lemmas: association-list maps -/

theorem mapGet_set_self {κ ν : Type} (eqk : κ → κ → Bool) (k : κ) (v : ν)
    (hrefl : eqk k k = true) :
    ∀ m : List (κ × ν), mapGet eqk (mapSet eqk m k v) k = some v := by
  intro m
  induction m with
  | nil => simp [mapSet, mapGet, hrefl]
  | cons e rest ih =>
    rcases e with ⟨a, b⟩
    by_cases h : eqk a k = true
    · simp [mapSet, mapGet, h]
    · simp only [mapSet, mapGet, if_neg h]
      exact ih

theorem mapGet_set_other {κ ν : Type} (eqk : κ → κ → Bool) (k k' : κ) (v : ν)
    (hrefl : eqk k k = true)
    (hcompat : ∀ a, eqk a k = true → eqk a k' = false) :
    ∀ m : List (κ × ν), mapGet eqk (mapSet eqk m k v) k' = mapGet eqk m k' := by
  intro m
  induction m with
  | nil => simp [mapSet, mapGet, hcompat k hrefl]
  | cons e rest ih =>
    rcases e with ⟨a, b⟩
    by_cases h : eqk a k = true
    · simp only [mapSet, if_pos h, mapGet]
      rw [hcompat a h, if_neg (by simp [hcompat a h])]
      rw [if_neg (by simp [hcompat a h])]
    · simp only [mapSet, if_neg h, mapGet]
      by_cases h' : eqk a k' = true
      · rw [if_pos h', if_pos h']
      · rw [if_neg h', if_neg h']
        exact ih

theorem mapDelete_set {κ ν : Type} (eqk : κ → κ → Bool) (k : κ) (v : ν)
    (hrefl : eqk k k = true) :
    ∀ m : List (κ × ν), mapDelete eqk (mapSet eqk m k v) k = mapDelete eqk m k := by
  intro m
  induction m with
  | nil => simp [mapSet, mapDelete, hrefl]
  | cons e rest ih =>
    rcases e with ⟨a, b⟩
    by_cases h : eqk a k = true
    · simp [mapSet, mapDelete, h]
    · simp only [mapSet, if_neg h, mapDelete]
      rw [ih]

theorem mapSet_set {κ ν : Type} (eqk : κ → κ → Bool) (k : κ) (v w : ν)
    (hrefl : eqk k k = true) :
    ∀ m : List (κ × ν), mapSet eqk (mapSet eqk m k v) k w = mapSet eqk m k w := by
  intro m
  induction m with
  | nil => simp [mapSet, hrefl]
  | cons e rest ih =>
    rcases e with ⟨a, b⟩
    by_cases h : eqk a k = true
    · simp [mapSet, h]
    · simp only [mapSet, if_neg h]
      rw [ih]

theorem mapSet_absent {κ ν : Type} (eqk : κ → κ → Bool) (k : κ) (v : ν) :
    ∀ m : List (κ × ν), (∀ e ∈ m, eqk e.1 k = false) →
      mapSet eqk m k v = m ++ [(k, v)] := by
  intro m
  induction m with
  | nil => intro _; rfl
  | cons e rest ih =>
    intro h
    rcases e with ⟨a, b⟩
    have ha : eqk a k = false := h (a, b) (by simp)
    simp only [mapSet, ha]
    rw [if_neg (by simp)]
    rw [ih (fun e he => h e (by simp [he]))]
    rfl

theorem mapGet_append_absent {κ ν : Type} (eqk : κ → κ → Bool) (k : κ) :
    ∀ (m₁ m₂ : List (κ × ν)), (∀ e ∈ m₁, eqk e.1 k = false) →
      mapGet eqk (m₁ ++ m₂) k = mapGet eqk m₂ k := by
  intro m₁
  induction m₁ with
  | nil => intro m₂ _; rfl
  | cons e rest ih =>
    intro m₂ h
    rcases e with ⟨a, b⟩
    have ha : eqk a k = false := h (a, b) (by simp)
    rw [List.cons_append, mapGet, if_neg (by simp [ha])]
    exact ih m₂ (fun e he => h e (by simp [he]))

/-! ## Lemmas: the ascending key sort -/

theorem insertSorted_cons_of_le (x y : Option Int) (ys : List (Option Int))
    (h : keyLE x y = true) : insertSorted x (y :: ys) = x :: y :: ys := by
  simp [insertSorted, h]

theorem sortKeys_eq_self :
    ∀ l : List (Option Int), l.Pairwise (fun a b => keyLE a b = true) →
      sortKeys l = l := by
  intro l
  induction l with
  | nil => intro _; rfl
  | cons x xs ih =>
    intro h
    rcases List.pairwise_cons.mp h with ⟨hx, hxs⟩
    rw [sortKeys, ih hxs]
    rcases xs with _ | ⟨y, ys⟩
    · rfl
    · exact insertSorted_cons_of_le x y ys (hx y (by simp))

/-! ## Lemmas: JavaScript slice on natural bounds -/

theorem jsSlice_nat (s : Str) (c l : Nat) :
    jsSlice s (c : Int) ((c : Int) + (l : Int)) = (s.drop c).take l := by
  unfold jsSlice jsIdx
  rw [if_neg (by omega), if_neg (by omega)]
  have h1 : ((c : Int) + (l : Int)).toNat = c + l := by omega
  have h2 : ((c : Int)).toNat = c := by omega
  rw [h1, h2, List.drop_take]
  by_cases hc : c ≤ s.length
  · rw [min_eq_left hc, List.take_eq_take]
    simp only [List.length_drop]
    omega
  · have hc' : s.length ≤ c := by omega
    rw [min_eq_right hc', List.drop_length, List.drop_eq_nil_of_le hc']
    simp

theorem jsSliceFrom_nonneg (s : Str) (m : Int) (h0 : 0 ≤ m) (hlt : m < (s.length : Int)) :
    jsSliceFrom s m = s.drop m.toNat := by
  unfold jsSliceFrom jsIdx
  rw [if_neg (by omega)]
  congr 1
  omega

/-! ## Lemmas: the chunk-limit loop -/

theorem calcChunkLoop_sound (maxLen safeCeil : Int) (tid : Str) :
    ∀ (fuel : Nat) (rem : Str) (i : Nat) (acc : List Int),
      rem ≠ [] →
      rem.length ≤ fuel →
      (∀ j : Nat, i ≤ j → j < i + rem.length → 1 ≤ maxChunkSizeAt maxLen safeCeil tid j) →
      ∃ L, calcChunkLoop maxLen safeCeil tid fuel rem i acc = some (acc.reverse ++ L) ∧
        LimitsSpec maxLen safeCeil tid i rem.length L := by
  intro fuel
  induction fuel with
  | zero =>
    intro rem i acc hne hle _
    have : rem.length = 0 := by omega
    exact absurd (List.eq_nil_of_length_eq_zero this) hne
  | succ fuel ih =>
    intro rem i acc hne hle hcap
    have hlen : 0 < rem.length := List.length_pos.mpr hne
    have hemp : rem.isEmpty = false := by
      rw [List.isEmpty_eq_false_iff_exists_mem]
      exact List.exists_mem_of_ne_nil rem hne
    rw [calcChunkLoop, hemp]
    simp only [Bool.false_eq_true, if_false]
    set mcs := maxChunkSizeAt maxLen safeCeil tid i with hmcs
    by_cases hfit : (rem.length : Int) ≤ mcs
    · rw [if_pos hfit]
      refine ⟨[(rem.length : Int)], ?_, ?_⟩
      · simp
      · exact LimitsSpec.last i rem.length hlen hfit
    · rw [if_neg hfit]
      have hcapi : 1 ≤ mcs := hcap i (le_refl i) (by omega)
      have hslice : jsSliceFrom rem mcs = rem.drop mcs.toNat :=
        jsSliceFrom_nonneg rem mcs (by omega) (by omega)
      have hlen' : (rem.drop mcs.toNat).length = rem.length - mcs.toNat := by
        simp
      have hne' : rem.drop mcs.toNat ≠ [] := by
        intro h
        have := congrArg List.length h
        rw [hlen'] at this
        simp at this
        omega
      rw [hslice]
      obtain ⟨L, hL1, hL2⟩ := ih (rem.drop mcs.toNat) (i + 1) (mcs :: acc) hne'
        (by rw [hlen']; omega)
        (by
          intro j hj1 hj2
          rw [hlen'] at hj2
          exact hcap j (by omega) (by omega))
      refine ⟨mcs :: L, ?_, ?_⟩
      · rw [hL1]
        simp
      · rw [hlen'] at hL2
        exact LimitsSpec.step i rem.length L hcapi (by omega) hL2

theorem LimitsSpec.ne_nil {maxLen safeCeil : Int} {tid : Str} {i len : Nat} {L : List Int}
    (h : LimitsSpec maxLen safeCeil tid i len L) : L ≠ [] := by
  cases h <;> simp

theorem LimitsSpec.sum_eq {maxLen safeCeil : Int} {tid : Str} :
    ∀ {i len : Nat} {L : List Int},
      LimitsSpec maxLen safeCeil tid i len L → L.sum = (len : Int) := by
  intro i len L h
  induction h with
  | last i len h1 h2 => simp
  | step i len rest h1 hlt hrec ih =>
    rw [List.sum_cons, ih]
    have : ((len - (maxChunkSizeAt maxLen safeCeil tid i).toNat : Nat) : Int) =
        (len : Int) - maxChunkSizeAt maxLen safeCeil tid i := by omega
    rw [this]
    ring

theorem LimitsSpec.all_pos {maxLen safeCeil : Int} {tid : Str} :
    ∀ {i len : Nat} {L : List Int},
      LimitsSpec maxLen safeCeil tid i len L → ∀ l ∈ L, 1 ≤ l := by
  intro i len L h
  induction h with
  | last i len h1 h2 =>
    intro l hl
    simp only [List.mem_singleton] at hl
    subst hl
    omega
  | step i len rest h1 hlt hrec ih =>
    intro l hl
    rcases List.mem_cons.mp hl with hl | hl
    · subst hl; exact h1
    · exact ih l hl

theorem chunkFramesLoop_spec (maxLen safeCeil : Int) (tid s : Str) :
    ∀ {i len : Nat} {L : List Int},
      LimitsSpec maxLen safeCeil tid i len L →
      ∀ c : Nat, c + len = s.length →
      ∃ ds dl,
        chunkFramesLoop tid s L (c : Int) i =
          (List.enumFrom i ds).map (fun p => chunkFrame tid (p.1 : Int) p.2) ++
            [chunkFrame tid (-1) dl] ∧
        ds.flatten ++ dl = s.drop c ∧
        (∀ p ∈ List.enumFrom i ds,
          (p.2.length : Int) = maxChunkSizeAt maxLen safeCeil tid p.1) ∧
        0 < dl.length ∧
        (dl.length : Int) ≤ maxChunkSizeAt maxLen safeCeil tid (i + ds.length) := by
  intro i len L h
  induction h with
  | last i len h1 h2 =>
    intro c hc
    refine ⟨[], s.drop c, ?_, by simp, by simp, ?_, ?_⟩
    · simp only [chunkFramesLoop, jsSlice_nat]
      have hdl : (s.drop c).take len = s.drop c := by
        have hld : (s.drop c).length = len := by
          simp only [List.length_drop]
          omega
        rw [← hld, List.take_length]
      rw [hdl]
      simp
    · simp only [List.length_drop]
      omega
    · simp only [List.length_drop, List.length_nil, Nat.add_zero]
      have : ((s.length - c : Nat) : Int) = (len : Int) := by omega
      rw [this]
      exact h2
  | step i len rest h1 hlt hrec ih =>
    intro c hc
    set mcs := maxChunkSizeAt maxLen safeCeil tid i with hmcs
    obtain ⟨r, rs, rfl⟩ : ∃ r rs, rest = r :: rs := by
      rcases hrest : rest with _ | ⟨r, rs⟩
      · exact absurd hrest hrec.ne_nil
      · exact ⟨r, rs, rfl⟩
    have htle : mcs.toNat < len := by omega
    have hcast : (c : Int) + mcs = ((c + mcs.toNat : Nat) : Int) := by omega
    obtain ⟨ds', dl, hframes, hflat, hlens, hdlpos, hdlle⟩ :=
      ih (c + mcs.toNat) (by omega)
    have hdi : jsSlice s (c : Int) ((c : Int) + mcs) = (s.drop c).take mcs.toNat := by
      have : (c : Int) + mcs = (c : Int) + ((mcs.toNat : Nat) : Int) := by omega
      rw [this, jsSlice_nat]
    refine ⟨(s.drop c).take mcs.toNat :: ds', dl, ?_, ?_, ?_, hdlpos, ?_⟩
    · simp only [chunkFramesLoop]
      rw [hdi, hcast, hframes]
      simp [List.enumFrom_cons]
    · have hdrop : s.drop (c + mcs.toNat) = (s.drop c).drop mcs.toNat := by
        rw [List.drop_drop]
      rw [hdrop] at hflat
      calc ((s.drop c).take mcs.toNat :: ds').flatten ++ dl
          = (s.drop c).take mcs.toNat ++ (ds'.flatten ++ dl) := by simp
      _ = (s.drop c).take mcs.toNat ++ (s.drop c).drop mcs.toNat := by rw [hflat]
      _ = s.drop c := List.take_append_drop _ _
    · intro p hp
      rw [List.enumFrom_cons] at hp
      rcases List.mem_cons.mp hp with hp | hp
      · subst hp
        simp only [List.length_take, List.length_drop]
        have : min mcs.toNat (s.length - c) = mcs.toNat := by omega
        rw [this]
        omega
      · exact hlens p hp
    · have : i + ((s.drop c).take mcs.toNat :: ds').length = (i + 1) + ds'.length := by
        simp only [List.length_cons]
        omega
      rw [this]
      exact hdlle

theorem calculateChunkLimits_spec (maxLen safeCeil : Int) (tid s : Str)
    (hml : maxLen ≠ -1) (hs : s ≠ [])
    (hcap : ∀ j : Nat, j < s.length → 1 ≤ maxChunkSizeAt maxLen safeCeil tid j) :
    ∃ L, calculateChunkLimits maxLen safeCeil tid s = some L ∧
      LimitsSpec maxLen safeCeil tid 0 s.length L := by
  unfold calculateChunkLimits
  rw [if_neg hml]
  obtain ⟨L, h1, h2⟩ := calcChunkLoop_sound maxLen safeCeil tid (s.length + 1) s 0 []
    hs (by omega) (by intro j hj1 hj2; exact hcap j (by omega))
  refine ⟨L, ?_, h2⟩
  rw [h1]
  simp

/-! ## Lemmas: frame lengths -/

theorem chunkFrame_length (tid : Str) (j : Int) (d : Str) :
    (chunkFrame tid j d).length = tid.length + 1 + (intToDec j).length + 1 + d.length := by
  simp [chunkFrame]
  omega

theorem chunkOverhead_eq (tid : Str) (idxStr : Str) :
    chunkOverhead tid idxStr = tid.length + 1 + idxStr.length + 1 := by
  simp [chunkOverhead]
  omega

theorem toDec_length_pos (n : Nat) : 0 < (toDec n).length :=
  List.length_pos.mpr (toDec_ne_nil n)

/-! ## Lemmas: chunk handling through `handle` -/

theorem handle_chunk_step (cfg : PeerConfig) (tid : Str) (td : TransitData)
    (j : Int) (d : Str) (st : PeerState)
    (hparse : cfg.codec.parse (chunkFrame tid j d) = none)
    (htid : ∀ c ∈ tid, c ≠ '.')
    (hj : parseIntJS (intToDec j) = some j)
    (hget : mapGet JsVal.beq st.transitStorage (.str tid) = some td) :
    handle cfg (chunkFrame tid j d) st =
      (if j = -1 then
        match cfg.codec.parse
          (reassembleChunks (mapSet optIntEq td.chunks (some j) d)) with
        | some v =>
          dispatchMessage cfg td.method v
            ⟨mapDelete JsVal.beq st.transitStorage (.str tid)⟩
        | none =>
          (⟨mapDelete JsVal.beq st.transitStorage (.str tid)⟩,
            logIf cfg true .reassemblyError)
      else
        (⟨mapSet JsVal.beq st.transitStorage (.str tid)
          ⟨td.method, mapSet optIntEq td.chunks (some j) d⟩⟩, [])) := by
  obtain ⟨d0, drest, hsd⟩ : ∃ d0 drest, splitDots d = d0 :: drest := by
    rcases h : splitDots d with _ | ⟨d0, drest⟩
    · exact absurd h (splitDots_ne_nil d)
    · exact ⟨d0, drest, rfl⟩
  have hjoin : joinDots (d0 :: drest) = d := by
    rw [← hsd, joinDots_splitDots]
  unfold handle
  rw [hparse]
  simp only [includesDot_chunkFrame, if_true]
  unfold handleTransitChunk
  rw [splitDots_chunkFrame tid j d htid, hsd]
  simp only [hj, hjoin, hget]
  by_cases hterm : j = -1
  · subst hterm
    simp only [if_pos rfl, reduceIte]
    have hdel : mapDelete JsVal.beq
        (mapSet JsVal.beq st.transitStorage (.str tid)
          ⟨td.method, mapSet optIntEq td.chunks (some (-1)) d⟩) (.str tid) =
        mapDelete JsVal.beq st.transitStorage (.str tid) :=
      mapDelete_set JsVal.beq (.str tid) _ (beq_str_refl tid) st.transitStorage
    rw [hdel]
  · have hne : ¬ (some j = some (-1)) := by
      simp only [Option.some.injEq]
      exact hterm
    rw [if_neg hne, if_neg hterm]

theorem handle_transit_init (cfg : PeerConfig) (raw : Str) (j : JsVal) (st : PeerState)
    (hparse : cfg.codec.parse raw = some j)
    (hm : truthy (jsGet j kMethod) = true)
    (ht : truthy (jsGet j kTransit) = true) :
    handle cfg raw st =
      (⟨mapSet JsVal.beq st.transitStorage (jsGet j kTransit) ⟨jsGet j kMethod, []⟩⟩,
        logIf cfg false .transitInitiated) := by
  unfold handle
  rw [hparse]
  simp only [hm, ht, Bool.not_true, Bool.false_eq_true, if_false, if_true]
  rfl

theorem mapGet_singleton_str {ν : Type} (t : Str) (x : ν) :
    mapGet JsVal.beq [(JsVal.str t, x)] (.str t) = some x := by
  simp [mapGet, beq_str_refl]

theorem mapSet_singleton_str {ν : Type} (t : Str) (x y : ν) :
    mapSet JsVal.beq [(JsVal.str t, x)] (.str t) y = [(JsVal.str t, y)] := by
  simp [mapSet, beq_str_refl]

theorem mapDelete_singleton_str {ν : Type} (t : Str) (x : ν) :
    mapDelete JsVal.beq [(JsVal.str t, x)] (.str t) = [] := by
  simp [mapDelete, beq_str_refl]

theorem runFrames_append (cfg : PeerConfig) :
    ∀ (a b : List Str) (st : PeerState),
      runFrames cfg (a ++ b) st =
        ((runFrames cfg b (runFrames cfg a st).1).1,
          (runFrames cfg a st).2 ++ (runFrames cfg b (runFrames cfg a st).1).2) := by
  intro a
  induction a with
  | nil => intro b st; simp [runFrames]
  | cons f fs ih =>
    intro b st
    simp only [List.cons_append, runFrames, List.append_eq]
    rw [ih]
    simp

theorem runFrames_middle_chunks (cfg : PeerConfig) (tid : Str) (m : JsVal)
    (htid : ∀ c ∈ tid, c ≠ '.')
    (hchunkp : ∀ i d, cfg.codec.parse (chunkFrame tid i d) = none) :
    ∀ (ds : List Str) (k : Nat) (cs : List (Option Int × Str)),
      (∀ e ∈ cs, ∃ jj : Nat, e.1 = some (jj : Int) ∧ jj < k) →
      runFrames cfg
        ((List.enumFrom k ds).map (fun p => chunkFrame tid (p.1 : Int) p.2))
        ⟨[(JsVal.str tid, ⟨m, cs⟩)]⟩ =
        (⟨[(JsVal.str tid,
          ⟨m, cs ++ (List.enumFrom k ds).map (fun p => (some (p.1 : Int), p.2))⟩)]⟩, []) := by
  intro ds
  induction ds with
  | nil => intro k cs _; simp [runFrames]
  | cons d ds' ih =>
    intro k cs hcs
    rw [List.enumFrom_cons]
    simp only [List.map_cons, runFrames]
    rw [handle_chunk_step cfg tid ⟨m, cs⟩ (k : Int) d _ (hchunkp _ _) htid
      (parseIntJS_intToDec_ofNat k) (mapGet_singleton_str tid _)]
    rw [if_neg (by omega)]
    have hset : mapSet optIntEq cs (some (k : Int)) d = cs ++ [(some (k : Int), d)] := by
      apply mapSet_absent
      intro e he
      obtain ⟨jj, hjj1, hjj2⟩ := hcs e he
      rw [hjj1]
      simp [optIntEq]
      omega
    rw [mapSet_singleton_str, hset]
    rw [ih (k + 1) (cs ++ [(some (k : Int), d)]) ?_]
    · simp
    · intro e he
      rcases List.mem_append.mp he with he | he
      · obtain ⟨jj, hjj1, hjj2⟩ := hcs e he
        exact ⟨jj, hjj1, by omega⟩
      · simp only [List.mem_singleton] at he
        subst he
        exact ⟨k, rfl, by omega⟩

theorem lookup_range' :
    ∀ (ds : List Str) (k : Nat) (tail : List (Option Int × Str)),
      (List.range' k ds.length).map
        (fun jj : Nat => (mapGet optIntEq
          ((List.enumFrom k ds).map (fun p => (some (p.1 : Int), p.2)) ++ tail)
          (some ((jj : Int)))).getD []) = ds := by
  intro ds
  induction ds with
  | nil => intro k tail; simp
  | cons d ds' ih =>
    intro k tail
    rw [List.length_cons, List.range'_succ, List.enumFrom_cons]
    simp only [List.map_cons, List.cons_append]
    have hhead : (mapGet optIntEq ((some ((k : Int)), d) ::
        ((List.enumFrom (k + 1) ds').map (fun p => (some (p.1 : Int), p.2)) ++ tail))
        (some ((k : Int)))).getD [] = d := by
      simp [mapGet, optIntEq]
    rw [hhead]
    congr 1
    have hstep : ∀ jj ∈ List.range' (k + 1) ds'.length,
        (mapGet optIntEq ((some ((k : Int)), d) ::
          ((List.enumFrom (k + 1) ds').map (fun p => (some (p.1 : Int), p.2)) ++ tail))
          (some ((jj : Int)))).getD [] =
        (mapGet optIntEq
          ((List.enumFrom (k + 1) ds').map (fun p => (some (p.1 : Int), p.2)) ++ tail)
          (some ((jj : Int)))).getD [] := by
      intro jj hjj
      rw [List.mem_range'_1] at hjj
      have hne : optIntEq (some ((k : Int))) (some ((jj : Int))) = false := by
        simp only [optIntEq, decide_eq_false_iff_not, Option.some.injEq]
        omega
      simp only [mapGet, hne, Bool.false_eq_true, if_false]
    rw [List.map_congr_left hstep, ih (k + 1) tail]

theorem lookup_terminal (ds : List Str) (k : Nat) (dl : Str) :
    mapGet optIntEq ((List.enumFrom k ds).map (fun p => (some (p.1 : Int), p.2)) ++
      [(some (-1), dl)]) (some (-1)) = some dl := by
  have habs : ∀ e ∈ (List.enumFrom k ds).map
      (fun p => (((some ((p.1 : Int))) : Option Int), p.2)),
      optIntEq e.1 (some (-1)) = false := by
    intro e he
    simp only [List.mem_map] at he
    obtain ⟨p, _, rfl⟩ := he
    simp only [optIntEq, decide_eq_false_iff_not, Option.some.injEq]
    omega
  rw [mapGet_append_absent optIntEq (some (-1)) _ _ habs]
  simp [mapGet, optIntEq]

theorem reassembleChunks_enum (ds : List Str) (dl : Str) :
    reassembleChunks ((List.enumFrom 0 ds).map (fun p => (some (p.1 : Int), p.2)) ++
      [(some (-1), dl)]) = ds.flatten ++ dl := by
  simp only [reassembleChunks]
  have hkeys : (((List.enumFrom 0 ds).map (fun p => (some (p.1 : Int), p.2)) ++
      [((some (-1) : Option Int), dl)]).map Prod.fst) =
      (List.range' 0 ds.length).map (fun j : Nat => some ((j : Int))) ++ [some (-1)] := by
    rw [List.map_append, List.map_map]
    congr 1
    have h1 : (Prod.fst ∘ fun p : Nat × Str => ((some ((p.1 : Int)) : Option Int), p.2)) =
        (fun j : Nat => some ((j : Int))) ∘ Prod.fst := rfl
    rw [h1, ← List.map_map, List.enumFrom_map_fst]
  rw [hkeys, List.filter_append]
  have hf1 : ((List.range' 0 ds.length).map (fun j : Nat => some ((j : Int)))).filter
      (fun k => decide (k ≠ some (-1))) =
      (List.range' 0 ds.length).map (fun j : Nat => some ((j : Int))) := by
    rw [List.filter_eq_self]
    intro a ha
    simp only [List.mem_map] at ha
    obtain ⟨j, _, rfl⟩ := ha
    simp only [ne_eq, Option.some.injEq, decide_eq_true_eq]
    omega
  have hf2 : ([(some (-1) : Option Int)]).filter (fun k => decide (k ≠ some (-1))) = [] := by
    simp
  rw [hf1, hf2, List.append_nil]
  have hpair : ((List.range' 0 ds.length).map (fun j : Nat => some ((j : Int)))).Pairwise
      (fun a b => keyLE a b = true) := by
    have h0 := List.pairwise_lt_range' 0 ds.length
    exact h0.map (fun j : Nat => some ((j : Int)))
      (fun a b hab => by
        simp only [keyLE, decide_eq_true_eq]
        omega)
  rw [sortKeys_eq_self _ hpair, List.map_map]
  rw [lookup_terminal ds 0 dl]
  have hcomp : ((fun k => (mapGet optIntEq
      ((List.enumFrom 0 ds).map (fun p => (some (p.1 : Int), p.2)) ++
        [(some (-1), dl)]) k).getD []) ∘ (fun j : Nat => some ((j : Int)))) =
      (fun jj : Nat => (mapGet optIntEq
        ((List.enumFrom 0 ds).map (fun p => (some (p.1 : Int), p.2)) ++
          [(some (-1), dl)]) (some ((jj : Int)))).getD []) := rfl
  rw [hcomp, lookup_range' ds 0 [(some (-1), dl)]]
  rfl

theorem runFrames_cons (cfg : PeerConfig) (f : Str) (fs : List Str) (st : PeerState) :
    runFrames cfg (f :: fs) st =
      ((runFrames cfg fs (handle cfg f st).1).1,
        (handle cfg f st).2 ++ (runFrames cfg fs (handle cfg f st).1).2) := rfl

theorem dispatchMessage_state (cfg : PeerConfig) (m v : JsVal) (st : PeerState) :
    (dispatchMessage cfg m v st).1 = st := by
  unfold dispatchMessage
  repeat' split
  all_goals rfl

theorem dispatchMessage_schemaFree (cfg : PeerConfig) (name : Str) (v : JsVal)
    (st : PeerState) (hmeth : mapGet strEq cfg.methods name = some ⟨none⟩) :
    dispatchMessage cfg (.str name) v st = (st, [Effect.invoked name v]) := by
  simp only [dispatchMessage]
  rw [hmeth]

theorem enum_chunks_no_terminal (ds : List Str) (k : Nat) :
    ∀ e ∈ (List.enumFrom k ds).map
      (fun p => (((some ((p.1 : Int))) : Option Int), p.2)),
      optIntEq e.1 (some (-1)) = false := by
  intro e he
  simp only [List.mem_map] at he
  obtain ⟨p, _, rfl⟩ := he
  simp only [optIntEq, decide_eq_false_iff_not, Option.some.injEq]
  omega

/-- C1 (amended): round-trip of the chunking codec.  When chunking is
triggered and every chunk index below the input length leaves at least one
character of per-chunk capacity (`maxChunkSizeAt ≥ 1` — the amendment the
counterexample forces, since for small `maxFrameSize` the encoder's
chunk-limit loop never terminates), replaying the encoder's frames through
`handle` reconstructs the serialized input exactly, dispatches the parsed
input to the registered handler exactly once, and leaves the transit store
empty. -/
theorem chunked_roundtrip
    (codec : JsonCodec) (maxLen safeCeil : Int) (tid method : Str)
    (input initObj : JsVal) (methods : List (Str × MethodDef))
    (hpos : 1 ≤ maxLen)
    (hml : maxLen ≠ -1)
    (hlen : maxLen < ((codec.stringify input).length : Int))
    (hcap : ∀ j : Nat, j < (codec.stringify input).length →
      1 ≤ maxChunkSizeAt maxLen safeCeil tid j)
    (htid : ∀ c ∈ tid, c ≠ '.')
    (hinitp : codec.parse
      (codec.stringify (.obj [(kMethod, .str method), (kTransit, .str tid)])) = some initObj)
    (hinitm : jsGet initObj kMethod = .str method)
    (hinitt : jsGet initObj kTransit = .str tid)
    (hmne : method ≠ [])
    (htne : tid ≠ [])
    (hchunkp : ∀ i d, codec.parse (chunkFrame tid i d) = none)
    (hsp : codec.parse (codec.stringify input) = some input)
    (hmeth : mapGet strEq methods method = some ⟨none⟩) :
    ∃ frames, encodeFrames codec maxLen safeCeil tid method input = some frames ∧
      runFrames ⟨codec, false, methods⟩ frames ⟨[]⟩ =
        (⟨[]⟩, [Effect.invoked method input]) := by
  set cfg : PeerConfig := ⟨codec, false, methods⟩ with hcfg
  set s := codec.stringify input with hsdef
  have hs_ne : s ≠ [] := by
    intro h
    rw [h] at hlen
    simp at hlen
    omega
  obtain ⟨L, hL, hspec⟩ := calculateChunkLimits_spec maxLen safeCeil tid s hml hs_ne hcap
  obtain ⟨ds, dl, hframes, hflat, _, _, _⟩ :=
    chunkFramesLoop_spec maxLen safeCeil tid s hspec 0 (by omega)
  rw [List.drop_zero] at hflat
  have hframes' : chunkFramesLoop tid s L 0 0 =
      (List.enumFrom 0 ds).map (fun p => chunkFrame tid (p.1 : Int) p.2) ++
        [chunkFrame tid (-1) dl] := by
    have h0 : ((0 : Nat) : Int) = (0 : Int) := rfl
    rw [← h0, hframes]
  have henc : encodeFrames codec maxLen safeCeil tid method input =
      some (codec.stringify (.obj [(kMethod, .str method), (kTransit, .str tid)]) ::
        ((List.enumFrom 0 ds).map (fun p => chunkFrame tid (p.1 : Int) p.2) ++
          [chunkFrame tid (-1) dl])) := by
    unfold encodeFrames
    rw [if_neg (by push_neg; exact ⟨hml, by rw [← hsdef]; omega⟩)]
    rw [← hsdef, hL, Option.map_some', hframes']
  refine ⟨_, henc, ?_⟩
  set initF := codec.stringify (.obj [(kMethod, .str method), (kTransit, .str tid)])
    with hinitF
  have hmtruthy : truthy (jsGet initObj kMethod) = true := by
    rw [hinitm]
    show (!method.isEmpty) = true
    rw [List.isEmpty_eq_false_iff_exists_mem.mpr (List.exists_mem_of_ne_nil method hmne)]
    rfl
  have httruthy : truthy (jsGet initObj kTransit) = true := by
    rw [hinitt]
    show (!tid.isEmpty) = true
    rw [List.isEmpty_eq_false_iff_exists_mem.mpr (List.exists_mem_of_ne_nil tid htne)]
    rfl
  set E := (List.enumFrom 0 ds).map (fun p => (((some ((p.1 : Int))) : Option Int), p.2))
    with hEdef
  set A := (List.enumFrom 0 ds).map (fun p => chunkFrame tid (p.1 : Int) p.2) with hAdef
  set st1 : PeerState := ⟨[(JsVal.str tid, ⟨JsVal.str method, []⟩)]⟩ with hst1
  set st2 : PeerState := ⟨[(JsVal.str tid, ⟨JsVal.str method, E⟩)]⟩ with hst2
  have hstep1 : handle cfg initF ⟨[]⟩ = (st1, []) := by
    rw [handle_transit_init cfg initF initObj ⟨[]⟩ hinitp hmtruthy httruthy]
    rw [hinitt, hinitm]
    rfl
  have hmid : runFrames cfg A st1 = (st2, []) := by
    have h0 := runFrames_middle_chunks cfg tid (JsVal.str method) htid hchunkp ds 0 []
      (by intro e he; exact absurd he (List.not_mem_nil e))
    rw [List.nil_append] at h0
    exact h0
  have hE : mapSet optIntEq E (some (-1)) dl = E ++ [(some (-1), dl)] :=
    mapSet_absent optIntEq (some (-1)) dl E (enum_chunks_no_terminal ds 0)
  have hterm : handle cfg (chunkFrame tid (-1) dl) st2 =
      (⟨[]⟩, [Effect.invoked method input]) := by
    rw [handle_chunk_step cfg tid ⟨JsVal.str method, E⟩ (-1) dl st2 (hchunkp _ _) htid
      parseIntJS_intToDec_negOne (mapGet_singleton_str tid _)]
    rw [if_pos rfl]
    have h2 : mapSet optIntEq (⟨JsVal.str method, E⟩ : TransitData).chunks (some (-1)) dl =
        E ++ [(some (-1), dl)] := hE
    rw [h2, reassembleChunks_enum ds dl, hflat]
    have h3 : cfg.codec.parse s = some input := hsp
    rw [h3]
    show dispatchMessage cfg (JsVal.str method) input
        ⟨mapDelete JsVal.beq [(JsVal.str tid, ⟨JsVal.str method, E⟩)] (JsVal.str tid)⟩ =
      (⟨[]⟩, [Effect.invoked method input])
    rw [mapDelete_singleton_str]
    exact dispatchMessage_schemaFree cfg method input ⟨[]⟩ hmeth
  calc runFrames cfg (initF :: (A ++ [chunkFrame tid (-1) dl])) ⟨[]⟩
      = ((runFrames cfg (A ++ [chunkFrame tid (-1) dl]) st1).1,
        [] ++ (runFrames cfg (A ++ [chunkFrame tid (-1) dl]) st1).2) := by
        rw [runFrames_cons, hstep1]
  _ = ((runFrames cfg [chunkFrame tid (-1) dl] (runFrames cfg A st1).1).1,
        [] ++ ((runFrames cfg A st1).2 ++
          (runFrames cfg [chunkFrame tid (-1) dl] (runFrames cfg A st1).1).2)) := by
        rw [runFrames_append]
  _ = ((runFrames cfg [chunkFrame tid (-1) dl] st2).1,
        [] ++ ([] ++ (runFrames cfg [chunkFrame tid (-1) dl] st2).2)) := by
        rw [hmid]
  _ = (⟨[]⟩, [Effect.invoked method input]) := by
        rw [runFrames_cons, hterm]
        rfl

/-- Raw chunk frames for `demoTid` start with `V` and are therefore not
parsed by `demoCodec`, matching real `JSON.parse` behaviour on them. -/
theorem demoCodec_chunkFrame_none :
    ∀ (i : Int) (d : Str), demoCodec.parse (chunkFrame demoTid i d) = none := by
  intro i d
  have h1 : chunkFrame demoTid i d ≠ demoInit := by
    rw [chunkFrame_assoc]
    simp [demoTid, demoInit]
  have h2 : chunkFrame demoTid i d ≠ demoS := by
    rw [chunkFrame_assoc]
    simp [demoTid, demoS]
  simp [demoCodec, h1, h2]

/-- Witness for C1's amended theorem at a concrete 30-character payload
with `maxFrameSize = 28`, `safetyMargin = 0` and a 15-character transit
id. -/
theorem chunked_roundtrip_witness :
    ∃ frames, encodeFrames demoCodec 28 0 demoTid demoMethod demoInput = some frames ∧
      runFrames ⟨demoCodec, false, [(demoMethod, ⟨none⟩)]⟩ frames ⟨[]⟩ =
        (⟨[]⟩, [Effect.invoked demoMethod demoInput]) :=
  chunked_roundtrip demoCodec 28 0 demoTid demoMethod demoInput demoInitObj
    [(demoMethod, ⟨none⟩)]
    (by decide) (by decide) (by decide) (by decide) (by decide)
    rfl rfl rfl (by decide) (by decide) demoCodec_chunkFrame_none rfl rfl

/-- With `maxFrameSize = 1` and the default `safetyMargin = 10`, the
per-chunk capacity is at most `-27`, so the chunk-limit loop leaves a
27-character remainder unchanged forever: no fuel suffices. -/
theorem calcChunkLoop_stuck_small :
    ∀ (fuel : Nat) (rem : Str) (i : Nat) (acc : List Int),
      rem.length = 27 →
      calcChunkLoop 1 10 demoTid fuel rem i acc = none := by
  intro fuel
  induction fuel with
  | zero =>
    intro rem i acc h
    rw [calcChunkLoop]
    rw [if_neg (by
      intro hemp
      rw [List.isEmpty_iff] at hemp
      rw [hemp] at h
      simp at h)]
  | succ fuel ih =>
    intro rem i acc h
    have hemp : rem.isEmpty = false := by
      rcases rem with _ | _
      · simp at h
      · rfl
    rw [calcChunkLoop, hemp]
    simp only [Bool.false_eq_true, if_false]
    have hov : (chunkOverhead demoTid (toDec i) : Int) = 17 + ((toDec i).length : Int) := by
      rw [chunkOverhead_eq]
      have hd : demoTid.length = 15 := rfl
      rw [hd]
      push_cast
      ring
    have hlen1 : 1 ≤ (toDec i).length := toDec_length_pos i
    have hmcs : maxChunkSizeAt 1 10 demoTid i ≤ -27 := by
      unfold maxChunkSizeAt
      rw [hov]
      omega
    rw [if_neg (by rw [h]; omega)]
    have hslice : jsSliceFrom rem (maxChunkSizeAt 1 10 demoTid i) = rem := by
      unfold jsSliceFrom jsIdx
      rw [if_pos (by omega)]
      have hz : (max ((rem.length : Int) + maxChunkSizeAt 1 10 demoTid i) 0).toNat = 0 := by
        rw [h]
        omega
      rw [hz, List.drop_zero]
    rw [hslice]
    exact ih rem (i + 1) _ h

/-- The encoder loop on the demo payload with `maxFrameSize = 1` never
terminates: its first iteration drops three characters, after which the
remainder is stuck at 27 characters for every further iteration. -/
theorem calcChunkLoop_demoS_none :
    ∀ (fuel : Nat) (acc : List Int),
      calcChunkLoop 1 10 demoTid fuel demoS 0 acc = none := by
  intro fuel acc
  rcases fuel with _ | fuel
  · rfl
  · rw [calcChunkLoop]
    rw [show (demoS.isEmpty) = false from rfl]
    simp only [Bool.false_eq_true, if_false]
    rw [if_neg (by decide)]
    have hs : jsSliceFrom demoS (maxChunkSizeAt 1 10 demoTid 0) = demoS.drop 3 := by decide
    rw [hs]
    exact calcChunkLoop_stuck_small fuel (demoS.drop 3) 1 _ (by decide)

theorem calculateChunkLimits_small_none :
    calculateChunkLimits 1 10 demoTid demoS = none := by
  unfold calculateChunkLimits
  rw [if_neg (by decide)]
  exact calcChunkLoop_demoS_none _ _

/-- C1 (counterexample): the claim as stated fails at `maxFrameSize = 1`
(with the default `safetyMargin = 10`): the encoder's chunk-limit loop
never terminates on a 30-character payload (`calcChunkLoop_demoS_none`), so
no frame sequence is produced and no round-trip happens. -/
theorem roundTrip_fails_at_small_frame :
    roundTripOk demoCodec 1 10 demoTid demoMethod demoInput = false := by
  unfold roundTripOk
  have henc : encodeFrames demoCodec 1 10 demoTid demoMethod demoInput = none := by
    unfold encodeFrames
    rw [if_neg (by decide)]
    rw [show demoCodec.stringify demoInput = demoS from rfl]
    rw [calculateChunkLimits_small_none]
    rfl
  rw [henc]

/-- C2 (amended): frame bound of the encoder.  Under the capacity
hypothesis, every non-terminal chunk frame has length exactly
`maxFrameSize - safetyMargin`; the terminal frame (sentinel index `-1`) may
exceed that bound by one character — its chunk was sized for the digit
count of its sequential index, and `-1` is one character wider than a
single digit — so every frame is bounded by
`maxFrameSize - safetyMargin + 1`. -/
theorem chunk_frame_bound
    (maxLen safeCeil : Int) (tid s : Str)
    (hml : maxLen ≠ -1) (hs : s ≠ [])
    (hcap : ∀ j : Nat, j < s.length → 1 ≤ maxChunkSizeAt maxLen safeCeil tid j) :
    ∃ frames, chunkFramesOf maxLen safeCeil tid s = some frames ∧
      (∀ f ∈ frames, (f.length : Int) ≤ maxLen - safeCeil + 1) ∧
      (∀ f ∈ frames.dropLast, (f.length : Int) = maxLen - safeCeil) := by
  obtain ⟨L, hL, hspec⟩ := calculateChunkLimits_spec maxLen safeCeil tid s hml hs hcap
  obtain ⟨ds, dl, hframes, _, hlens, _, hdlle⟩ :=
    chunkFramesLoop_spec maxLen safeCeil tid s hspec 0 (by omega)
  have hframes' : chunkFramesLoop tid s L 0 0 =
      (List.enumFrom 0 ds).map (fun p => chunkFrame tid (p.1 : Int) p.2) ++
        [chunkFrame tid (-1) dl] := by
    have h0 : ((0 : Nat) : Int) = (0 : Int) := rfl
    rw [← h0, hframes]
  have hof : chunkFramesOf maxLen safeCeil tid s =
      some ((List.enumFrom 0 ds).map (fun p => chunkFrame tid (p.1 : Int) p.2) ++
        [chunkFrame tid (-1) dl]) := by
    unfold chunkFramesOf
    rw [hL, Option.map_some', hframes']
  have hmidlen : ∀ f ∈ (List.enumFrom 0 ds).map (fun p => chunkFrame tid (p.1 : Int) p.2),
      (f.length : Int) = maxLen - safeCeil := by
    intro f hf
    simp only [List.mem_map] at hf
    obtain ⟨p, hp, rfl⟩ := hf
    have hl := hlens p hp
    have hcap' : maxChunkSizeAt maxLen safeCeil tid p.1 =
        maxLen - (chunkOverhead tid (toDec p.1) : Int) - safeCeil := rfl
    rw [chunkFrame_length, intToDec_ofNat]
    rw [chunkOverhead_eq] at hcap'
    push_cast
    omega
  have hterml : ((chunkFrame tid (-1) dl).length : Int) ≤ maxLen - safeCeil + 1 := by
    have hk := toDec_length_pos (0 + ds.length)
    have hcap' : maxChunkSizeAt maxLen safeCeil tid (0 + ds.length) =
        maxLen - (chunkOverhead tid (toDec (0 + ds.length)) : Int) - safeCeil := rfl
    rw [chunkOverhead_eq] at hcap'
    have hdl := hdlle
    rw [hcap'] at hdl
    rw [chunkFrame_length, intToDec_negOne]
    have h2 : (['-', '1'] : Str).length = 2 := rfl
    rw [h2]
    push_cast at hdl ⊢
    omega
  refine ⟨_, hof, ?_, ?_⟩
  · intro f hf
    rcases List.mem_append.mp hf with hf | hf
    · rw [hmidlen f hf]
      omega
    · simp only [List.mem_singleton] at hf
      subst hf
      exact hterml
  · intro f hf
    rw [List.dropLast_concat] at hf
    exact hmidlen f hf

/-- Witness for C2's amended theorem at the concrete demo instance. -/
theorem chunk_frame_bound_witness :
    ∃ frames, chunkFramesOf 28 0 demoTid demoS = some frames ∧
      (∀ f ∈ frames, (f.length : Int) ≤ 28 - 0 + 1) ∧
      (∀ f ∈ frames.dropLast, (f.length : Int) = 28 - 0) :=
  chunk_frame_bound 28 0 demoTid demoS (by decide) (by decide) (by decide)

/-- C2 (counterexample): with `maxFrameSize = 28` and `safetyMargin = 0`,
a 30-character payload produces frames of lengths 28, 28 and 29: the
terminal frame exceeds both `maxFrameSize - safetyMargin` and
`maxFrameSize` itself. -/
theorem chunk_frame_exceeds_bound :
    ((chunkFramesOf 28 0 demoTid demoS).getD []).all
      (fun f => f.length ≤ 28) = false := by decide

/-- C9: termination and totality of `calculateChunkLimits`.  If chunking is
disabled, or every chunk index below the input length has per-chunk
capacity at least 1, the loop terminates and the returned chunk sizes sum
to exactly the input length. -/
theorem chunk_limits_total
    (maxLen safeCeil : Int) (tid s : Str)
    (h : maxLen = -1 ∨ ∀ j : Nat, j < s.length → 1 ≤ maxChunkSizeAt maxLen safeCeil tid j) :
    ∃ L, calculateChunkLimits maxLen safeCeil tid s = some L ∧
      L.sum = (s.length : Int) := by
  by_cases hml : maxLen = -1
  · subst hml
    refine ⟨[(s.length : Int)], ?_, by simp⟩
    unfold calculateChunkLimits
    rw [if_pos rfl]
  · rcases h with h | h
    · exact absurd h hml
    · by_cases hsnil : s = []
      · subst hsnil
        refine ⟨[], ?_, by simp⟩
        unfold calculateChunkLimits
        rw [if_neg hml]
        rfl
      · obtain ⟨L, h1, h2⟩ := calculateChunkLimits_spec maxLen safeCeil tid s hml hsnil h
        exact ⟨L, h1, h2.sum_eq⟩

/-- Witness for C9 at the concrete demo instance: the limits are
`[10, 10, 10]`, summing to the 30-character length. -/
theorem chunk_limits_total_witness :
    ∃ L, calculateChunkLimits 28 0 demoTid demoS = some L ∧
      L.sum = ((demoS.length : Int)) :=
  chunk_limits_total 28 0 demoTid demoS (Or.inr (by decide))

/-- C3 (counterexample): a transit-init frame whose id already has a live
buffer with one stored chunk replaces it with a fresh empty buffer — the
existing reassembly state (chunk count 1) is lost (chunk count 0),
contradicting "the existing Transit Buffer is left unchanged". -/
theorem transit_init_collision_overwrites :
    (mapGet JsVal.beq
      (handleTransitInitiation demoCfg cxInitJson ⟨cxStore⟩).1.transitStorage
      (.str demoTid)).map (fun td => td.chunks.length) = some 0 ∧
    (mapGet JsVal.beq cxStore (.str demoTid)).map (fun td => td.chunks.length) = some 1 := by
  constructor <;> rfl

/-- C3 (amended): `handleTransitInitiation` performs no collision check —
an arriving transit-init frame unconditionally stores a fresh empty buffer
under its id, replacing any live buffer for that id; other ids are
untouched, and the only emitted effect is the initiation log (no handler
invocation, no response frame). -/
theorem transit_init_overwrite
    (cfg : PeerConfig) (j : JsVal) (st : PeerState) (t : Str)
    (ht : jsGet j kTransit = .str t) :
    mapGet JsVal.beq (handleTransitInitiation cfg j st).1.transitStorage (.str t) =
      some ⟨jsGet j kMethod, []⟩ ∧
    (∀ t' : Str, t' ≠ t →
      mapGet JsVal.beq (handleTransitInitiation cfg j st).1.transitStorage (.str t') =
        mapGet JsVal.beq st.transitStorage (.str t')) ∧
    (handleTransitInitiation cfg j st).2 = logIf cfg false .transitInitiated := by
  unfold handleTransitInitiation
  rw [ht]
  refine ⟨?_, ?_, rfl⟩
  · exact mapGet_set_self JsVal.beq (.str t) _ (beq_str_refl t) _
  · intro t' hne
    apply mapGet_set_other JsVal.beq (.str t) (.str t') _ (beq_str_refl t)
    intro a ha
    rw [beq_str_iff] at ha
    subst ha
    exact beq_str_ne t t' (fun h => hne h.symm)

/-- Witness for C3's amended theorem at the concrete collision instance. -/
theorem transit_init_overwrite_witness :
    mapGet JsVal.beq
      (handleTransitInitiation demoCfg cxInitJson ⟨cxStore⟩).1.transitStorage
      (.str demoTid) = some ⟨jsGet cxInitJson kMethod, []⟩ ∧
    mapGet JsVal.beq
      (handleTransitInitiation demoCfg cxInitJson ⟨cxStore⟩).1.transitStorage
      (.str ['z']) = mapGet JsVal.beq cxStore (.str ['z']) ∧
    (handleTransitInitiation demoCfg cxInitJson ⟨cxStore⟩).2 =
      logIf demoCfg false .transitInitiated := by
  obtain ⟨h1, h2, h3⟩ := transit_init_overwrite demoCfg cxInitJson ⟨cxStore⟩ demoTid rfl
  exact ⟨h1, h2 ['z'] (by decide), h3⟩

theorem mapSet_get_self {κ ν : Type} (eqk : κ → κ → Bool) (k : κ) (v : ν) :
    ∀ m : List (κ × ν), mapGet eqk m k = some v → mapSet eqk m k v = m := by
  intro m
  induction m with
  | nil => intro h; simp [mapGet] at h
  | cons e rest ih =>
    rcases e with ⟨a, b⟩
    intro h
    by_cases ha : eqk a k = true
    · simp only [mapGet, if_pos ha, Option.some.injEq] at h
      subst h
      simp [mapSet, ha]
    · simp only [mapGet, if_neg ha] at h
      simp only [mapSet, if_neg ha]
      rw [ih h]

/-- Deletion of the transit buffer on the terminal chunk, regardless of the
reassembly parse outcome (`peer.ts` lines 686-723: the buffer is deleted in
the `try` branch before dispatch and again in the `catch` branch). -/
theorem terminal_deletes_buffer
    (cfg : PeerConfig) (raw : Str) (st : PeerState) (tid idxStr d0 : Str)
    (drest : List Str) (td : TransitData)
    (hsplit : splitDots raw = tid :: idxStr :: d0 :: drest)
    (hidx : parseIntJS idxStr = some (-1))
    (hget : mapGet JsVal.beq st.transitStorage (.str tid) = some td) :
    (handleTransitChunk cfg raw st).1.transitStorage =
      mapDelete JsVal.beq st.transitStorage (.str tid) := by
  unfold handleTransitChunk
  rw [hsplit]
  simp only [hidx, hget]
  rw [if_pos trivial]
  have hdel := mapDelete_set JsVal.beq (JsVal.str tid)
    (⟨td.method, mapSet optIntEq td.chunks (some (-1)) (joinDots (d0 :: drest))⟩ : TransitData)
    (beq_str_refl tid) st.transitStorage
  rcases hp : cfg.codec.parse (reassembleChunks
      (mapSet optIntEq td.chunks (some (-1)) (joinDots (d0 :: drest)))) with _ | v
  · simp only []
    rw [hdel]
  · simp only []
    rw [dispatchMessage_state]
    rw [hdel]

/-- Net effect of one well-formed transfer on the transit store: whatever
the store held before, afterwards the transfer's id is gone and nothing
else changed. -/
theorem transfer_net_effect (cfg : PeerConfig) (t : Transfer) (hWF : t.WF cfg.codec) :
    ∀ st : PeerState, (runFrames cfg t.frames st).1.transitStorage =
      mapDelete JsVal.beq st.transitStorage (.str t.tid) := by
  obtain ⟨⟨j, hp, hm, ht⟩, htne, htdot, hcp⟩ := hWF
  intro st
  rw [Transfer.frames, runFrames_cons]
  rw [handle_transit_init cfg t.initFrame j st hp hm (by
    rw [ht]
    show (!t.tid.isEmpty) = true
    rw [List.isEmpty_eq_false_iff_exists_mem.mpr (List.exists_mem_of_ne_nil t.tid htne)]
    rfl)]
  rw [ht]
  set store0 := mapSet JsVal.beq st.transitStorage (.str t.tid) ⟨jsGet j kMethod, []⟩
    with hstore0
  have hmid : ∀ (mcs : List (Nat × Str)) (store : List (JsVal × TransitData)) (td : TransitData),
      mapGet JsVal.beq store (.str t.tid) = some td →
      ∃ td', (runFrames cfg (mcs.map (fun p => chunkFrame t.tid (p.1 : Int) p.2)) ⟨store⟩).1 =
        ⟨mapSet JsVal.beq store (.str t.tid) td'⟩ := by
    intro mcs
    induction mcs with
    | nil =>
      intro store td hget
      exact ⟨td, by simp only [List.map_nil, runFrames]; rw [mapSet_get_self _ _ _ _ hget]⟩
    | cons p mcs' ih =>
      intro store td hget
      rw [List.map_cons, runFrames_cons]
      rw [handle_chunk_step cfg t.tid td (p.1 : Int) p.2 ⟨store⟩ (hcp _ _) htdot
        (parseIntJS_intToDec_ofNat p.1) hget]
      rw [if_neg (by omega)]
      obtain ⟨td', htd'⟩ := ih (mapSet JsVal.beq store (.str t.tid)
        ⟨td.method, mapSet optIntEq td.chunks (some ((p.1 : Int))) p.2⟩)
        ⟨td.method, mapSet optIntEq td.chunks (some ((p.1 : Int))) p.2⟩
        (mapGet_set_self JsVal.beq (.str t.tid) _ (beq_str_refl t.tid) store)
      refine ⟨td', ?_⟩
      rw [htd']
      rw [mapSet_set JsVal.beq (.str t.tid) _ _ (beq_str_refl t.tid)]
  -- the storage after the init frame
  have hrest : ∀ (store : List (JsVal × TransitData)) (td : TransitData),
      mapGet JsVal.beq store (.str t.tid) = some td →
      (runFrames cfg (t.middleChunks.map (fun p => chunkFrame t.tid (p.1 : Int) p.2) ++
        [chunkFrame t.tid (-1) t.lastData]) ⟨store⟩).1.transitStorage =
        mapDelete JsVal.beq store (.str t.tid) := by
    intro store td hget
    rw [runFrames_append]
    obtain ⟨td', htd'⟩ := hmid t.middleChunks store td hget
    rw [htd']
    rw [runFrames_cons]
    rw [handle_chunk_step cfg t.tid td' (-1) t.lastData
      ⟨mapSet JsVal.beq store (.str t.tid) td'⟩ (hcp _ _) htdot
      parseIntJS_intToDec_negOne
      (mapGet_set_self JsVal.beq (.str t.tid) _ (beq_str_refl t.tid) store)]
    rw [if_pos rfl]
    have hdel : mapDelete JsVal.beq
        ((⟨mapSet JsVal.beq store (.str t.tid) td'⟩ : PeerState).transitStorage)
        (.str t.tid) = mapDelete JsVal.beq store (.str t.tid) :=
      mapDelete_set JsVal.beq (.str t.tid) td' (beq_str_refl t.tid) store
    rcases hp2 : cfg.codec.parse (reassembleChunks
        (mapSet optIntEq td'.chunks (some (-1)) t.lastData)) with _ | v
    · simp only []
      rw [hdel]
      rfl
    · simp only []
      rw [dispatchMessage_state]
      rw [hdel]
      rfl
  rw [hrest store0 ⟨jsGet j kMethod, []⟩
    (mapGet_set_self JsVal.beq (.str t.tid) _ (beq_str_refl t.tid) st.transitStorage)]
  rw [hstore0]
  rw [mapDelete_set JsVal.beq (.str t.tid) _ (beq_str_refl t.tid) st.transitStorage]

/-- Empty store stays empty across any sequence of terminated well-formed
transfers. -/
theorem transfers_leave_empty (cfg : PeerConfig) :
    ∀ ts : List Transfer, (∀ t ∈ ts, t.WF cfg.codec) →
      ∀ st : PeerState, st.transitStorage = [] →
        (runFrames cfg ((ts.map Transfer.frames).flatten) st).1.transitStorage = [] := by
  intro ts
  induction ts with
  | nil => intro _ st hst; simp only [List.map_nil, List.flatten_nil, runFrames]; exact hst
  | cons t rest ih =>
    intro hWF st hst
    rw [List.map_cons, List.flatten_cons, runFrames_append]
    apply ih (fun t' ht' => hWF t' (by simp [ht']))
    rw [transfer_net_effect cfg t (hWF t (by simp)) st, hst]
    rfl

/-- C4: transit-buffer memory bound.  First conjunct: processing the
terminal chunk (index `-1`) of a transit id present in the store removes
that id's buffer from the store, whether the reassembled string parses
(dispatch happens, store untouched thereafter) or not (the catch branch
also deletes).  Second conjunct: starting from an empty store, any
sequence of well-formed transfers that each end in their terminal chunk
leaves the reassembler holding zero buffers. -/
theorem terminal_chunk_memory_bound :
    (∀ (cfg : PeerConfig) (raw : Str) (st : PeerState) (tid idxStr d0 : Str)
      (drest : List Str) (td : TransitData),
      splitDots raw = tid :: idxStr :: d0 :: drest →
      parseIntJS idxStr = some (-1) →
      mapGet JsVal.beq st.transitStorage (.str tid) = some td →
      (handleTransitChunk cfg raw st).1.transitStorage =
        mapDelete JsVal.beq st.transitStorage (.str tid)) ∧
    (∀ (cfg : PeerConfig) (ts : List Transfer), (∀ t ∈ ts, t.WF cfg.codec) →
      (runFrames cfg ((ts.map Transfer.frames).flatten) ⟨[]⟩).1.transitStorage = []) :=
  ⟨fun cfg raw st tid idxStr d0 drest td h1 h2 h3 =>
    terminal_deletes_buffer cfg raw st tid idxStr d0 drest td h1 h2 h3,
   fun cfg ts hWF => transfers_leave_empty cfg ts hWF ⟨[]⟩ rfl⟩

/-- Witness for C4 at concrete inputs: deleting the demo id from a
one-buffer store on its terminal chunk, and a complete demo transfer
leaving the store empty. -/
theorem terminal_chunk_memory_bound_witness :
    (handleTransitChunk demoCfg (chunkFrame demoTid (-1) ['x']) ⟨cxStore⟩).1.transitStorage =
      mapDelete JsVal.beq cxStore (.str demoTid) ∧
    (runFrames demoCfg (([demoTransfer].map Transfer.frames).flatten) ⟨[]⟩).1.transitStorage
      = [] := by
  constructor
  · exact terminal_chunk_memory_bound.1 demoCfg (chunkFrame demoTid (-1) ['x']) ⟨cxStore⟩
      demoTid ['-', '1'] ['x'] [] ⟨JsVal.str demoMethod, [(some 0, ['x'])]⟩
      (by decide) (by decide) rfl
  · exact terminal_chunk_memory_bound.2 demoCfg [demoTransfer]
      (by
        intro t ht
        simp only [List.mem_singleton] at ht
        subst ht
        exact ⟨⟨demoInitObj, rfl, rfl, rfl⟩, by decide, by decide,
          demoCodec_chunkFrame_none⟩)

/-- C7: a chunk frame whose transit id is absent from the store is inert —
`handle` returns the state unchanged (no buffer created, store untouched)
with at most the "unknown transit" log as its only effect (no handler
invocation, no response frame), and processing is total (no crash). -/
theorem unknown_transit_chunk_inert
    (cfg : PeerConfig) (raw : Str) (st : PeerState) (p0 p1 p2 : Str) (prest : List Str)
    (hparse : cfg.codec.parse raw = none)
    (hsplit : splitDots raw = p0 :: p1 :: p2 :: prest)
    (habsent : mapGet JsVal.beq st.transitStorage (.str p0) = none) :
    handle cfg raw st = (st, logIf cfg true .unknownTransit) := by
  have hdot : includesDot raw = true := by
    by_contra h
    have hnd : ∀ c ∈ raw, c ≠ '.' := by
      intro c hc he
      subst he
      exact h (includesDot_of_mem hc)
    rw [dotfree_splitDots raw hnd] at hsplit
    simp at hsplit
  unfold handle
  rw [hparse]
  simp only [hdot, if_true]
  unfold handleTransitChunk
  rw [hsplit]
  simp only [habsent]

/-- Witness for C7: an unsolicited chunk frame against an empty store is
dropped with only the log emitted. -/
theorem unknown_transit_chunk_inert_witness :
    handle demoCfgLog (chunkFrame demoTid 0 ['x']) ⟨[]⟩ =
      (⟨[]⟩, [Effect.logged true LogTag.unknownTransit]) := by
  have h := unknown_transit_chunk_inert demoCfgLog (chunkFrame demoTid 0 ['x']) ⟨[]⟩
    demoTid ['0'] ['x'] [] (demoCodec_chunkFrame_none 0 ['x']) (by decide) rfl
  rw [h]
  rfl

/-- C10: a parsed whole-message frame with a truthy `method`, no `transit`
and a falsy `input` is dropped by `handle` after the "input not found" log:
no validator runs, no handler is invoked, no response is sent and the state
is unchanged.  The second conjunct records which `input` values are falsy:
missing (`undefined`), `null`, `false`, `0` and the empty string. -/
theorem falsy_input_dropped
    (cfg : PeerConfig) (raw : Str) (st : PeerState) (j : JsVal)
    (hparse : cfg.codec.parse raw = some j)
    (hm : truthy (jsGet j kMethod) = true)
    (ht : truthy (jsGet j kTransit) = false)
    (hi : truthy (jsGet j kInput) = false) :
    handle cfg raw st = (st, logIf cfg true .inputNotFound) ∧
    (truthy .undefined = false ∧ truthy .null = false ∧ truthy (.bool false) = false ∧
      truthy (.num 0) = false ∧ truthy (.str []) = false) := by
  refine ⟨?_, by decide, by decide, by decide, by decide, by decide⟩
  unfold handle
  rw [hparse]
  simp only [hm, ht, hi, Bool.not_true, Bool.not_false, Bool.false_eq_true, if_false, if_true]

/-- Witness for C10: a frame parsing to `{method: "ping", input: 0}` is
dropped with only the "input not found" log. -/
theorem falsy_input_dropped_witness :
    handle cx10Cfg ['x'] ⟨[]⟩ = (⟨[]⟩, [Effect.logged true LogTag.inputNotFound]) := by
  have h := falsy_input_dropped cx10Cfg ['x'] ⟨[]⟩ cxJson10 rfl (by decide) (by decide)
    (by decide)
  rw [h.1]
  rfl

/-- C8: one-shot response handling of an issued call.  Delivering the next
inbound message to a fresh waiter settles its promise according to the
message — rejected with the `error` field when that field is truthy,
resolved with the `data` field otherwise, rejected with the parse error
when parsing fails — and removes the listener in every one of these
outcomes, so a second message leaves the waiter untouched. -/
theorem caller_one_shot
    (parse : Str → Option JsVal) (raw raw2 : Str) :
    (deliverMessage parse raw newCallWaiter).listenerActive = false ∧
    (deliverMessage parse raw newCallWaiter).outcome = some (messageOutcome parse raw) ∧
    deliverMessage parse raw2 (deliverMessage parse raw newCallWaiter) =
      deliverMessage parse raw newCallWaiter ∧
    (parse raw = none → messageOutcome parse raw = .rejectedParseFailure) ∧
    (∀ resp, parse raw = some resp → truthy (jsGet resp kError) = true →
      messageOutcome parse raw = .rejectedError (jsGet resp kError)) ∧
    (∀ resp, parse raw = some resp → truthy (jsGet resp kError) = false →
      messageOutcome parse raw = .resolved (jsGet resp kData)) := by
  refine ⟨rfl, rfl, rfl, ?_, ?_, ?_⟩
  · intro h
    unfold messageOutcome
    rw [h]
  · intro resp h hterr
    unfold messageOutcome
    rw [h]
    simp only [hterr, if_true]
  · intro resp h hterr
    unfold messageOutcome
    rw [h]
    simp only [hterr, Bool.false_eq_true, if_false]

/-- Witness for C8: a parsing response without an `error` field resolves
and removes the listener; a second, unparsable message is ignored; an
unparsable first message rejects with the parse failure. -/
theorem caller_one_shot_witness :
    (deliverMessage demoCodec.parse demoInit newCallWaiter).listenerActive = false ∧
    deliverMessage demoCodec.parse ['x'] (deliverMessage demoCodec.parse demoInit newCallWaiter) =
      deliverMessage demoCodec.parse demoInit newCallWaiter ∧
    messageOutcome demoCodec.parse demoInit = .resolved (jsGet demoInitObj kData) ∧
    messageOutcome demoCodec.parse ['x'] = .rejectedParseFailure := by
  obtain ⟨h1, _, h3, _, _, h6⟩ := caller_one_shot demoCodec.parse demoInit ['x']
  obtain ⟨_, _, _, h4', _, _⟩ := caller_one_shot demoCodec.parse ['x'] ['x']
  exact ⟨h1, h3, h6 demoInitObj rfl rfl, h4' rfl⟩

/-- C5: bounded reconnection with silent exhaustion.  With
`reconnect = true` and `maxReconnectAttempts = 3`, when every attempt fails
after opening, exactly 3 connection attempts occur in total (attempts are
numbered from 1); after the third close no retry is scheduled, and the
close handler's exhausted branch does nothing — it gives up silently for
the third and every later attempt number. -/
theorem bounded_reconnection :
    totalAttempts true 3 1 = 3 ∧
    onCloseOutcome true 3 3 = .giveUpSilently ∧
    (∀ k : Nat, onCloseOutcome true 3 (3 + k) = .giveUpSilently) := by
  refine ⟨?_, ?_, ?_⟩
  · rw [totalAttempts, if_pos ⟨rfl, by omega⟩]
    rw [totalAttempts, if_pos ⟨rfl, by omega⟩]
    rw [totalAttempts, if_neg (fun h => absurd h.2 (by omega))]
  · unfold onCloseOutcome
    rw [if_neg (fun h => absurd h.2 (by omega))]
  · intro k
    unfold onCloseOutcome
    rw [if_neg (fun h => absurd h.2 (by omega))]

/-- C6 (code-bug evidence): `connect` stores no handle for the retry
`setTimeout` and the source contains no `clearTimeout`, so entering a new
connection attempt leaves a pending retry timer pending; when that stale
timer later fires, it closes and replaces the fresh socket (id 2) with a
new one (id 3) instead of having been cancelled. -/
theorem reconnect_timer_survives_connect :
    (attemptConnectionStart 2 ⟨1, none⟩).pendingRetryTimers = 1 ∧
    fireRetryTimer 3 (attemptConnectionStart 2 ⟨1, none⟩) = ⟨0, some 3⟩ ∧
    (fireRetryTimer 3 (attemptConnectionStart 2 ⟨1, none⟩)).socket ≠ some 2 := by
  refine ⟨rfl, rfl, by decide⟩

end VCONN
